import Mathlib

/-!
Verification development for the JSON & Markdown validator / formatter
(`formatter.py`).  The program is shallowly embedded: text is modelled as
`List Char`, each Python function becomes a Lean definition translated from
the source, and regular-expression based detection is re-expressed as
explicit predicates over character sequences preserving the exact matching
semantics of the patterns in the source.
-/

namespace Fmt

/-- A line (or any piece of text) is a list of characters. -/
abbrev Line := List Char

/-- Python whitespace predicate, as used by `str.strip()` / `str.rstrip()`
and by the `\s` class of the `re` module on `str` patterns (Unicode
whitespace). -/
def wsp (c : Char) : Bool :=
  let n := c.toNat
  n = 32 || n = 9 || n = 10 || n = 11 || n = 12 || n = 13 ||
  n = 28 || n = 29 || n = 30 || n = 31 || n = 133 || n = 160 ||
  n = 0x1680 || (0x2000 ≤ n && n ≤ 0x200a) || n = 0x2028 || n = 0x2029 ||
  n = 0x202f || n = 0x205f || n = 0x3000

/-- Line-break characters recognised by Python `str.splitlines`
(`\r\n` is additionally treated as a single break by `splitlines`). -/
def termCh (c : Char) : Bool :=
  let n := c.toNat
  n = 10 || n = 13 || n = 11 || n = 12 || n = 28 || n = 29 || n = 30 ||
  n = 133 || n = 0x2028 || n = 0x2029

/-- `str.lstrip()` : drop leading whitespace. -/
def pyLstrip (cs : Line) : Line := cs.dropWhile wsp

/-- `str.rstrip()` : drop trailing whitespace. -/
def pyRstrip (cs : Line) : Line := (cs.reverse.dropWhile wsp).reverse

/-- `str.strip()` : drop whitespace from both ends. -/
def pyStrip (cs : Line) : Line := pyRstrip (pyLstrip cs)

/-- `str.strip('|')` : drop ALL leading and trailing pipe characters
(Python strips a maximal run of the given characters from each end). -/
def stripPipes (cs : Line) : Line :=
  ((cs.dropWhile (· == '|')).reverse.dropWhile (· == '|')).reverse

/-- `str.rstrip('\n')` : drop trailing newline characters. -/
def rstripNl (cs : Line) : Line := (cs.reverse.dropWhile (· == '\n')).reverse

/-- `str.split('|')` : split on every pipe character; always returns at
least one piece, and pieces never contain a pipe. -/
def splitPipe : Line → List Line
  | [] => [[]]
  | c :: r =>
    let ps := splitPipe r
    if c = '|' then [] :: ps else (c :: ps.headD []) :: ps.tail

/-- `'|' in s` : membership test for the pipe character. -/
def hasPipe (l : Line) : Bool := decide ('|' ∈ l)

/-- `re.search(r':?-{3,}:?', s)` succeeds exactly when `s` contains three
consecutive dashes (the optional colons do not constrain the search). -/
def dash3 (l : Line) : Bool := decide (['-', '-', '-'] <:+: l)

/-- `re.match(r'^:?-{3,}:?$', p)` : an optional colon, three or more
dashes, an optional colon, end of string (source line 144). -/
def isAlignMarker (p : Line) : Bool :=
  let p1 := if p.headD ' ' = ':' then p.tail else p
  let ds := p1.takeWhile (· == '-')
  let rest := p1.dropWhile (· == '-')
  3 ≤ ds.length && (rest = [] || rest = [':'])

/-- `split_row` (source lines 125-127): trim the line, strip pipes from the
ends, split on `'|'`, trim each resulting piece. -/
def split_row (r : Line) : List Line :=
  (splitPipe (stripPipes (pyStrip r))).map pyStrip

/-- Python `str.splitlines` (keepends = False): split at every line-break
character, treating `"\r\n"` as a single break; a trailing break does not
produce a final empty line, and the empty string yields no lines. -/
def pySplitlinesAux (cur : Line) : Line → List Line
  | [] => if cur = [] then [] else [cur.reverse]
  | c :: r =>
    if termCh c then
      if c = '\r' ∧ r.head? = some '\n' then
        cur.reverse :: pySplitlinesAux [] r.tail
      else cur.reverse :: pySplitlinesAux [] r
    else pySplitlinesAux (c :: cur) r
termination_by cs => cs.length
decreasing_by
  all_goals simp only [List.length_cons, List.length_tail]
  all_goals omega

/-- `text.splitlines()`. A trailing break produces no final empty line and
the empty string yields `[]`. -/
def pySplitlines (cs : Line) : List Line := pySplitlinesAux [] cs

/-- `'\n'.join(lines)`. -/
def joinNl (ls : List Line) : Line := List.intercalate ['\n'] ls

/-- Whether the second regex of `normalize_heading`
(`^(#{1,6})([^\s#].*)$`, source line 95) matches `line`, with the leading
hash run already removed as `rest`: the first remaining character is
neither whitespace nor a hash, and `.*$` requires no interior newline. -/
def m2Matches (rest : Line) : Bool :=
  match rest with
  | [] => false
  | c :: cr => !wsp c && c ≠ '#' && decide ('\n' ∉ cr.dropLast)

/-- `normalize_heading` (source lines 89-100).  The first regex
`^(#{1,6})\s*(.*)$` matches every line starting with a hash whose text
after the (up to six) leading hashes and any following whitespace contains
no newline other than a trailing one; its effect is to rebuild the line as
the hash run (capped at six), one space, and the stripped remainder.  The
second regex never fires when the first fails, but is kept for
faithfulness. -/
def normalize_heading (line : Line) : Line :=
  let run := (line.takeWhile (· == '#')).length
  if 1 ≤ run then
    let k := min run 6
    let rest := line.drop k
    if decide ('\n' ∉ (rest.dropWhile wsp).dropLast) then
      List.replicate k '#' ++ ' ' :: pyStrip rest
    else if m2Matches rest then
      List.replicate k '#' ++ ' ' :: pyStrip rest
    else line
  else line

/-- `re.match(r'^#{1,6}\s', line)` (source line 193): the line starts with
one to six hashes immediately followed by a whitespace character. -/
def headingMatch (line : Line) : Bool :=
  let run := (line.takeWhile (· == '#')).length
  1 ≤ run && run ≤ 6 &&
    (match line.drop run with
     | c :: _ => wsp c
     | [] => false)

/-- The condition under which a line continues a table block (source lines
111 and 209): it contains a pipe and is not blank. -/
def blockPred (l : Line) : Bool := hasPipe l && !(pyStrip l).isEmpty

/-- The condition under which a table block starts (source lines 107-109
and 206): the current line contains a pipe, a next line exists, contains a
pipe and contains a `:?-{3,}:?` match. -/
def startCond (l : Line) (rest : List Line) : Bool :=
  hasPipe l &&
    (match rest.head? with
     | some l2 => hasPipe l2 && dash3 l2
     | none => false)

/-- The inner extension loop of `find_tables` (source lines 110-112):
starting from index `k`, advance while the line exists, contains a pipe
and is non-blank; the first failing index is `k` plus the length of the
run of block lines from `k` on. -/
def scanEnd (lines : List Line) (k : Nat) : Nat :=
  k + ((lines.drop k).takeWhile blockPred).length

/-- The outer loop of `find_tables` (source lines 106-116), at index `i`. -/
def findTablesAux (lines : List Line) (i : Nat) : List (Nat × Nat) :=
  if h : i + 1 < lines.length then
    if hasPipe (lines.getD i []) then
      if hasPipe (lines.getD (i + 1) []) && dash3 (lines.getD (i + 1) []) then
        let k := scanEnd lines (i + 2)
        (i, k) :: findTablesAux lines k
      else findTablesAux lines (i + 1)
    else findTablesAux lines (i + 1)
  else []
termination_by lines.length - i
decreasing_by
  · have hk : i + 2 ≤ scanEnd lines (i + 2) := Nat.le_add_right _ _
    omega
  · omega
  · omega

/-- `find_tables` (source lines 102-117). -/
def find_tables (lines : List Line) : List (Nat × Nat) := findTablesAux lines 0

/-- `parse_table_block` (source lines 119-131): fewer than two lines yield
no rows and no separator; otherwise row 0 is the split header, the second
line is the stripped separator, and the remaining lines are split as data
rows.  (`split_row` strips its argument first, so pre-stripping the header
is redundant and omitted.) -/
def parse_table_block : List Line → List (List Line) × Option Line
  | [] => ([], none)
  | [_] => ([], none)
  | h :: s :: t => (split_row h :: t.map split_row, some (pyStrip s))

/-- The outcome messages of `validate_table`, abstracted from the exact
strings of source lines 135-146: `valid` is "Table looks valid",
`emptyTable` is "Empty table", `colMismatch r a e` carries the 1-based row
number, actual and expected column counts, `sepCount a e` the separator
segment count and expected count, and `badSegment p` the offending
separator segment. -/
inductive TableMsg : Type
  | valid : TableMsg
  | emptyTable : TableMsg
  | colMismatch (row actual expected : Nat) : TableMsg
  | sepCount (actual expected : Nat) : TableMsg
  | badSegment (seg : Line) : TableMsg
deriving DecidableEq, Repr

/-- The row loop of `validate_table` (source lines 137-139): the 0-based
index and length of the first row whose cell count differs from `ncols`. -/
def firstBadRow (ncols : Nat) : Nat → List (List Line) → Option (Nat × Nat)
  | _, [] => none
  | idx, r :: rs =>
    if r.length ≠ ncols then some (idx, r.length)
    else firstBadRow ncols (idx + 1) rs

/-- `validate_table` (source lines 133-146).  The separator is an optional
line because `parse_table_block` returns `None` for short blocks; a `none`
separator reaching line 140 would fault in the source (`None.strip()`), so
that case is modelled as `none` here.  Failure checks occur in source
order: empty row list, first column-count mismatch, separator segment
count, first invalid separator segment. -/
def validate_table (rows : List (List Line)) (sep : Option Line) :
    Option (Bool × TableMsg) :=
  match rows with
  | [] => some (false, .emptyTable)
  | h :: _ =>
    let ncols := h.length
    match firstBadRow ncols 0 rows with
    | some (idx, len) => some (false, .colMismatch (idx + 1) len ncols)
    | none =>
      match sep with
      | none => none
      | some sepLine =>
        let parts := split_row sepLine
        if parts.length ≠ ncols then some (false, .sepCount parts.length ncols)
        else
          match parts.find? (fun p => !isAlignMarker p) with
          | some p => some (false, .badSegment p)
          | none => some (true, .valid)

/-- `str.ljust(w)` : pad on the right with spaces to width `w`. -/
def ljust (c : Line) (w : Nat) : Line := c ++ List.replicate (w - c.length) ' '

/-- `'| ' + ' | '.join(pieces) + ' |'` (source lines 156, 157, 160). -/
def barJoin (pieces : List Line) : Line :=
  '|' :: ' ' :: List.intercalate [' ', '|', ' '] pieces ++ [' ', '|']

/-- One merge step of the width loop of `format_table` (source lines
153-155): `widths[i] = max(widths[i], len(c))` for each cell of one row;
`none` models the `IndexError` raised when a row has more cells than the
header. -/
def updWidths : List Nat → List Line → Option (List Nat)
  | ws, [] => some ws
  | [], _ :: _ => none
  | w :: ws, c :: r => (updWidths ws r).map (fun t => max w c.length :: t)

/-- The width computation of `format_table` (source lines 151-155),
starting from `[0]*ncols`. -/
def computeWidths (ncols : Nat) (rows : List (List Line)) :
    Option (List Nat) :=
  rows.foldlM updWidths (List.replicate ncols 0)

/-- A data or header row rendered by `format_table` (source lines 156 and
160): each cell left-justified to its column width, joined with pipes. -/
def fmtRowLine (ws : List Nat) (r : List Line) : Line :=
  barJoin (List.zipWith ljust r ws)

/-- The separator row rendered by `format_table` (source line 157): each
column is a dash run of length `max 3 width`. -/
def sepRowLine (ws : List Nat) : Line :=
  barJoin (ws.map (fun w => List.replicate (max 3 w) '-'))

/-- `format_table` (source lines 148-162): empty rows give the empty
string; otherwise the header row, the separator row and the data rows are
joined with newlines.  `none` models the `IndexError` of the width loop
when some row is longer than the header. -/
def format_table (rows : List (List Line)) : Option Line :=
  match rows with
  | [] => some []
  | h :: t =>
    (computeWidths h.length (h :: t)).map (fun ws =>
      joinNl (fmtRowLine ws h :: sepRowLine ws :: t.map (fmtRowLine ws)))

/-- The first pass of `format_md_file` (source lines 187-200): normalize
each line; a heading line is emitted stripped, followed by an inserted
blank line when the next source line is non-blank; any other line is
emitted right-stripped. -/
def pass1 : List Line → List Line
  | [] => []
  | l :: rest =>
    let l' := normalize_heading l
    if headingMatch l' then
      pyStrip l' ::
        (match rest.head? with
         | some r => if (pyStrip r).isEmpty then [] else [[]]
         | none => []) ++ pass1 rest
    else pyRstrip l' :: pass1 rest

/-- The second pass of `format_md_file` (source lines 201-222): scan for
table blocks; a block is the maximal run of pipe-containing non-blank
lines from the start line; a valid block is replaced by the split output
of `format_table`, an invalid one is passed through verbatim; other lines
pass through.  `none` propagates the modelled faults of `validate_table`
and `format_table` (never reached from `format_md_core`, see below). -/
def pass2 : List Line → Option (List Line)
  | [] => some []
  | l :: rest =>
    if hs : startCond l rest then
      let blk := (l :: rest).takeWhile blockPred
      let rest' := (l :: rest).dropWhile blockPred
      let pr := parse_table_block blk
      match validate_table pr.1 pr.2 with
      | none => none
      | some (ok, _) =>
        if ok then
          match format_table pr.1 with
          | none => none
          | some f => (pass2 rest').map (fun o => pySplitlines f ++ o)
        else (pass2 rest').map (fun o => blk ++ o)
    else (pass2 rest).map (fun o => l :: o)
termination_by ls => ls.length
decreasing_by
  all_goals simp only [List.length_cons]
  all_goals first
  | omega
  | · have hpipe : '|' ∈ l := by
        have h1 := (Bool.and_eq_true _ _).mp hs |>.1
        simpa [hasPipe] using h1
      have hstrip : '|' ∈ pyStrip l := by
        have h2 : '|' ∈ pyLstrip l := by
          have hsplit := List.takeWhile_append_dropWhile (p := wsp) (l := l)
          rcases List.mem_append.mp (hsplit ▸ hpipe) with h | h
          · have := List.mem_takeWhile_imp h
            simp [wsp] at this
          · exact h
        have hsplit := List.takeWhile_append_dropWhile
          (p := wsp) (l := (pyLstrip l).reverse)
        rcases List.mem_append.mp
            (hsplit ▸ (List.mem_reverse.mpr h2)) with h | h
        · have := List.mem_takeWhile_imp h
          simp [wsp] at this
        · exact List.mem_reverse.mpr h
      have hb : blockPred l = true := by
        have : pyStrip l ≠ [] := fun hn => by simp [hn] at hstrip
        simp [blockPred, hasPipe, hpipe, List.isEmpty_iff, this]
      calc ((l :: rest).dropWhile blockPred).length
          = (rest.dropWhile blockPred).length := by
            simp [List.dropWhile_cons, hb]
        _ ≤ rest.length := (List.dropWhile_sublist _).length_le
        _ < rest.length + 1 := Nat.lt_succ_self _

/-- The file-writing core of `format_md_file` (source lines 183-229, minus
I/O): split the raw text into lines, run the heading pass and the table
pass, join with newlines, strip trailing whitespace and append a single
newline. -/
def format_md_core (text : Line) : Option Line :=
  (pass2 (pass1 (pySplitlines text))).map (fun out =>
    pyRstrip (joinNl out) ++ ['\n'])

/-- The `(start, end)` ranges of the table blocks selected by the second
pass of `format_md_file` (source lines 201-222): the same scan as `pass2`,
recording `(i, j)` for each block instead of rewriting it. -/
def pass2Ranges (i : Nat) : List Line → List (Nat × Nat)
  | [] => []
  | l :: rest =>
    if hs : startCond l rest then
      let blk := (l :: rest).takeWhile blockPred
      let rest' := (l :: rest).dropWhile blockPred
      (i, i + blk.length) :: pass2Ranges (i + blk.length) rest'
    else pass2Ranges (i + 1) rest
termination_by ls => ls.length
decreasing_by
  all_goals simp only [List.length_cons]
  all_goals first
  | omega
  | · have hpipe : '|' ∈ l := by
        have h1 := (Bool.and_eq_true _ _).mp hs |>.1
        simpa [hasPipe] using h1
      have hstrip : '|' ∈ pyStrip l := by
        have h2 : '|' ∈ pyLstrip l := by
          have hsplit := List.takeWhile_append_dropWhile (p := wsp) (l := l)
          rcases List.mem_append.mp (hsplit ▸ hpipe) with h | h
          · have := List.mem_takeWhile_imp h
            simp [wsp] at this
          · exact h
        have hsplit := List.takeWhile_append_dropWhile
          (p := wsp) (l := (pyLstrip l).reverse)
        rcases List.mem_append.mp
            (hsplit ▸ (List.mem_reverse.mpr h2)) with h | h
        · have := List.mem_takeWhile_imp h
          simp [wsp] at this
        · exact List.mem_reverse.mpr h
      have hb : blockPred l = true := by
        have : pyStrip l ≠ [] := fun hn => by simp [hn] at hstrip
        simp [blockPred, hasPipe, hpipe, List.isEmpty_iff, this]
      calc ((l :: rest).dropWhile blockPred).length
          = (rest.dropWhile blockPred).length := by
            simp [List.dropWhile_cons, hb]
        _ ≤ rest.length := (List.dropWhile_sublist _).length_le
        _ < rest.length + 1 := Nat.lt_succ_self _

/-- One table check of `validate_md_file` (source lines 169-174): the
block's lines are taken with trailing newlines removed, parsed and
validated; a failing table contributes a problem record `(start, end,
message)` (rendered by the source as
`Table at lines S+1-E : message`). -/
def validateMdBlock (lines : List Line) (r : Nat × Nat) :
    Option (Option (Nat × Nat × TableMsg)) :=
  let blk := ((lines.drop r.1).take (r.2 - r.1)).map rstripNl
  let pr := parse_table_block blk
  (validate_table pr.1 pr.2).map (fun om =>
    if om.1 then none else some (r.1, r.2, om.2))

/-- The core of `validate_md_file` (source lines 164-181, minus I/O): the
list of problem records over all scanned table blocks (empty means the
source prints the OK message and returns 0). -/
def validate_md_core (lines : List Line) : Option (List (Nat × Nat × TableMsg)) :=
  (find_tables lines).foldlM (fun acc r =>
    (validateMdBlock lines r).map (fun om =>
      match om with
      | none => acc
      | some pb => acc ++ [pb])) []

/-- `re.sub(r'//.*', '', text)` (source line 32): delete everything from
each `//` to the end of its line (`.` does not match a newline, so the
deletion stops before the next newline character). -/
def stripLineComments : Line → Line
  | [] => []
  | '/' :: '/' :: r => stripLineComments (r.dropWhile (fun c => c != '\n'))
  | c :: r => c :: stripLineComments r
termination_by cs => cs.length
decreasing_by
  · have := (List.dropWhile_sublist (l := r) (fun c => c != '\n')).length_le
    simp only [List.length_cons]
    omega
  · simp only [List.length_cons]
    omega

/-- The `.*?` part of `re.sub(r'/\*.*?\*/', '', text, flags=re.DOTALL)`:
the characters strictly before the first `*/` occurrence, or `none` when
no `*/` occurs. -/
def upToClose : Line → Option Line
  | [] => none
  | '*' :: '/' :: _ => some []
  | c :: r => (upToClose r).map (fun p => c :: p)

/-- `re.sub(r'/\*.*?\*/', '', text, flags=re.DOTALL)` (source line 33):
delete each `/*` together with everything up to the nearest following
`*/`; an unclosed `/*` is left in place (the pattern cannot match at or
after it, since no `*/` follows). -/
def stripBlockComments : Line → Line
  | [] => []
  | '/' :: '*' :: r =>
    match upToClose r with
    | some pre => stripBlockComments (r.drop (pre.length + 2))
    | none => '/' :: '*' :: stripBlockComments r
  | c :: r => c :: stripBlockComments r
termination_by cs => cs.length
decreasing_by
  · simp only [List.length_cons, List.length_drop]
    omega
  · simp only [List.length_cons]
    omega
  · simp only [List.length_cons]
    omega

/-- The closing character probe of `re.sub(r',\s*(\}|])', r'\1', text)`:
after a comma, skip whitespace (`\s*`); the match succeeds when the next
character is `}` or `]`. -/
def commaClose (r : Line) : Option Char :=
  match r.dropWhile wsp with
  | c :: _ => if c = '}' ∨ c = ']' then some c else none
  | [] => none

/-- `re.sub(r',\s*(\}|])', r'\1', text)` (source lines 34 and 40; the
second occurrence spells the group `([}\]])`, with identical meaning):
each comma followed by optional whitespace and a closing brace or bracket
is replaced by just that closing character; scanning resumes after the
match. -/
def removeTrailingCommas : Line → Line
  | [] => []
  | c :: r =>
    if c = ',' then
      match commaClose r with
      | some b => b :: removeTrailingCommas ((r.dropWhile wsp).tail)
      | none => ',' :: removeTrailingCommas r
    else c :: removeTrailingCommas r
termination_by cs => cs.length
decreasing_by
  · have := (List.dropWhile_sublist (l := r) wsp).length_le
    simp only [List.length_cons, List.length_tail]
    omega
  · simp only [List.length_cons]
    omega
  · simp only [List.length_cons]
    omega

/-- The inner text of a single-quoted span, per the pattern
`'([^'\\]*(?:\\.[^'\\]*)*)'` (source line 39), scanning after an opening
quote: plain characters (any character other than quote and backslash,
newline included), or a backslash followed by any non-newline character;
`some inner` means a closing quote follows exactly `inner`; `none` means
the pattern cannot match at this opening quote (end of input, or a
backslash followed by a newline or by nothing). -/
def matchSQ : Line → Option Line
  | [] => none
  | c :: r =>
    if c = '\x27' then some []
    else if c = '\\' then
      match r with
      | [] => none
      | d :: r' =>
        if d = '\n' then none
        else (matchSQ r').map (fun i => '\\' :: d :: i)
    else (matchSQ r).map (fun i => c :: i)

/-- `inner.replace('"', '\\"')` (source line 37). -/
def escQ (cs : Line) : Line :=
  cs.flatMap (fun c => if c = '"' then ['\\', '"'] else [c])

/-- `re.sub(r"'([^'\\]*(?:\\.[^'\\]*)*)'", ...)` with the replacement of
source lines 35-39: each single-quoted span is rewritten double-quoted
with embedded double quotes escaped; an opening quote with no matching
close is kept and scanning continues at the next character (where the
remaining quotes fail to match for the same reason they failed inside the
attempted span). -/
def convertSingleQuotes : Line → Line
  | [] => []
  | c :: r =>
    if c = '\x27' then
      match matchSQ r with
      | some inner =>
        '"' :: escQ inner ++ '"' :: convertSingleQuotes (r.drop (inner.length + 1))
      | none => c :: convertSingleQuotes r
    else c :: convertSingleQuotes r
termination_by cs => cs.length
decreasing_by
  · simp only [List.length_cons, List.length_drop]
    omega
  · simp only [List.length_cons]
    omega
  · simp only [List.length_cons]
    omega

/-- `try_repair_json` (source lines 30-41): strip line comments, strip
block comments, remove trailing commas, convert single-quoted spans,
remove trailing commas again; if the result strips to nothing, return the
original text unchanged. -/
def try_repair_json (text : Line) : Line :=
  let t1 := stripLineComments text
  let t2 := stripBlockComments t1
  let t3 := removeTrailingCommas t2
  let t4 := convertSingleQuotes t3
  let t5 := removeTrailingCommas t4
  if (pyStrip t5).isEmpty then text else t5

/-- The five regex transformations of `try_repair_json` without the final
all-whitespace guard (source lines 32-40). -/
def repairPipeline (text : Line) : Line :=
  removeTrailingCommas (convertSingleQuotes (removeTrailingCommas
    (stripBlockComments (stripLineComments text))))

/-- `detect_json_errors` (source lines 23-28), over the external oracle
parser (spec section 6): `(True, 'Valid JSON')` on success, and on failure
`False` together with the oracle error that the source renders as
`JSONDecodeError: msg (line L column C)`. -/
def detect_json_errors {V E : Type} (parse : Line → Except E V)
    (text : Line) : Bool × Option E :=
  match parse text with
  | .ok _ => (true, none)
  | .error e => (false, some e)

/-- The formatting core of `format_json_file` (source lines 63-84, minus
I/O), over the external oracle parser and serializer (spec section 6):
parse; on failure repair once and re-parse; on success the emitted file
content is the serialization plus a trailing newline (source line 80);
`none` means the format is aborted with no output. -/
def format_json_core {V E : Type} (parse : Line → Except E V)
    (serialize : V → Line) (text : Line) : Option Line :=
  match parse text with
  | .ok v => some (serialize v ++ ['\n'])
  | .error _ =>
    match parse (try_repair_json text) with
    | .ok v => some (serialize v ++ ['\n'])
    | .error _ => none

/-- No line-break character occurs in the line (lines produced by
`pySplitlines` satisfy this). -/
def noTerm (l : Line) : Prop := ∀ c ∈ l, termCh c = false

/-- The line carries no trailing whitespace. -/
def rstripped (l : Line) : Prop := pyRstrip l = l

/-- The line begins with a hash character. -/
def startsHash (l : Line) : Prop := l.head? = some '#'

/-- The shape of a heading line emitted by the first pass: a run of one to
six hashes, either alone or followed by a single space and non-empty
trimmed text. -/
def isNormHeading (x : Line) : Prop :=
  ∃ k, 1 ≤ k ∧ k ≤ 6 ∧
    (x = List.replicate k '#' ∨
     ∃ t, t ≠ [] ∧ pyStrip t = t ∧ x = List.replicate k '#' ++ ' ' :: t)

/-- Structural invariant of the first pass output: every line that starts
with a hash is a normalized heading and is followed by a blank line or is
last. -/
def Good : List Line → Prop
  | [] => True
  | l :: rest =>
    (startsHash l → isNormHeading l ∧ rest.head?.getD [] = []) ∧ Good rest

/-- Remove trailing empty lines. -/
def dropTrailingEmpty (ls : List Line) : List Line :=
  (ls.reverse.dropWhile (fun l => l.isEmpty)).reverse

/-- A miniature serializer exhibiting the oracle contract of spec section 6
on a concrete instance: the single value serializes to the digit zero. -/
def demoSerialize : Unit → Line := fun _ => ['0']

/-- The matching parser: accepts the serialized form with or without the
trailing newline added by the format writer. -/
def demoParse (l : Line) : Except Unit Unit :=
  if l = ['0'] ∨ l = ['0', '\n'] then Except.ok () else Except.error ()

/-! ## Shared lemmas -/

theorem mem_pyLstrip_of_not_wsp {c : Char} {l : Line} (hc : wsp c = false)
    (h : c ∈ l) : c ∈ pyLstrip l := by
  have hsplit := List.takeWhile_append_dropWhile (p := wsp) (l := l)
  rcases List.mem_append.mp (hsplit ▸ h) with h' | h'
  · have := List.mem_takeWhile_imp h'
    rw [hc] at this
    exact absurd this (by simp)
  · exact h'

theorem mem_pyRstrip_of_not_wsp {c : Char} {l : Line} (hc : wsp c = false)
    (h : c ∈ l) : c ∈ pyRstrip l := by
  have hsplit := List.takeWhile_append_dropWhile (p := wsp) (l := l.reverse)
  rcases List.mem_append.mp (hsplit ▸ List.mem_reverse.mpr h) with h' | h'
  · have := List.mem_takeWhile_imp h'
    rw [hc] at this
    exact absurd this (by simp)
  · exact List.mem_reverse.mpr h'

theorem mem_pyStrip_of_not_wsp {c : Char} {l : Line} (hc : wsp c = false)
    (h : c ∈ l) : c ∈ pyStrip l :=
  mem_pyRstrip_of_not_wsp hc (mem_pyLstrip_of_not_wsp hc h)

theorem pyStrip_ne_nil_of_pipe {l : Line} (h : '|' ∈ l) : pyStrip l ≠ [] :=
  fun hn => by
    have := mem_pyStrip_of_not_wsp (c := '|') (by decide) h
    simp [hn] at this

theorem blockPred_of_hasPipe {l : Line} (h : hasPipe l = true) :
    blockPred l = true := by
  have hp : '|' ∈ l := by simpa [hasPipe] using h
  simp [blockPred, hasPipe, hp, List.isEmpty_iff, pyStrip_ne_nil_of_pipe hp]

/-! ## C4 : heading normalization -/

/-- C4, counterexample.  The claim states that a line with more than six
leading hash characters is returned unmodified; but `normalize_heading`
rewrites `"#######Title"` (seven hashes) to `"###### #Title"`. -/
theorem c4_counterexample :
    normalize_heading ("#######Title".data) = ("###### #Title".data) ∧
    normalize_heading ("#######Title".data) ≠ ("#######Title".data) := by
  constructor
  · decide
  · decide

/-- C4, amended.  For every newline-free input line: a line with no
leading hash is returned unmodified; a line with `run` leading hashes,
`1 ≤ run ≤ 6`, is rewritten as the hash run, a single space, and the
trimmed remaining text; and a line with more than six leading hashes is
NOT returned unmodified but rewritten as six hashes, a single space, and
the trimmed remainder, which begins with a hash character. -/
theorem c4_heading_amended (line : Line) (hnl : '\n' ∉ line) :
    ((line.takeWhile (· == '#')).length = 0 → normalize_heading line = line) ∧
    (1 ≤ (line.takeWhile (· == '#')).length →
      (line.takeWhile (· == '#')).length ≤ 6 →
      normalize_heading line =
        List.replicate (line.takeWhile (· == '#')).length '#' ++
          ' ' :: pyStrip (line.drop (line.takeWhile (· == '#')).length)) ∧
    (7 ≤ (line.takeWhile (· == '#')).length →
      normalize_heading line =
        List.replicate 6 '#' ++ ' ' :: pyStrip (line.drop 6) ∧
      (line.drop 6).head? = some '#') := by
  have hguard : ∀ k : Nat,
      decide ('\n' ∉ ((line.drop k).dropWhile wsp).dropLast) = true := by
    intro k
    refine decide_eq_true ?_
    intro hmem
    exact hnl ((List.drop_sublist k line).subset
      ((List.dropWhile_sublist wsp).subset
        ((List.dropLast_sublist _).subset hmem)))
  refine ⟨?_, ?_, ?_⟩
  · intro h0
    simp [normalize_heading, h0]
  · intro h1 h6
    have hk : min (line.takeWhile (· == '#')).length 6 =
        (line.takeWhile (· == '#')).length := Nat.min_eq_left h6
    simp [normalize_heading, h1, hk, hguard]
  · intro h7
    have h1 : 1 ≤ (line.takeWhile (· == '#')).length := by omega
    have hk : min (line.takeWhile (· == '#')).length 6 = 6 :=
      Nat.min_eq_right (by omega)
    constructor
    · simp [normalize_heading, h1, hk, hguard]
    · have hrep : line.takeWhile (· == '#') =
          List.replicate (line.takeWhile (· == '#')).length '#' :=
        List.eq_replicate_length.mpr (fun b hb => by
          have := List.mem_takeWhile_imp hb
          simpa using this)
      have hsplit := List.takeWhile_append_dropWhile (p := (· == '#')) (l := line)
      have hdrop : line.drop 6 =
          (line.takeWhile (· == '#')).drop 6 ++ line.dropWhile (· == '#') := by
        conv_lhs => rw [← hsplit]
        exact List.drop_append_of_le_length (by omega)
      rw [hdrop]
      conv_lhs => rw [hrep]
      rw [List.drop_replicate]
      have h2 : (line.takeWhile (· == '#')).length - 6 =
          ((line.takeWhile (· == '#')).length - 7) + 1 := by omega
      rw [h2, List.replicate_succ]
      rfl

/-- C4, witness for the amended theorem at concrete lines. -/
theorem c4_heading_amended_witness :
    ('\n' ∉ ("##Title".data : Line)) ∧
    normalize_heading ("##Title".data) = ("## Title".data) ∧
    ('\n' ∉ ("#######Title".data : Line)) ∧
    normalize_heading ("#######Title".data) = ("###### #Title".data) ∧
    ('\n' ∉ ("plain".data : Line)) ∧
    normalize_heading ("plain".data) = ("plain".data) := by
  refine ⟨by decide, ?_, by decide, ?_, by decide, ?_⟩
  · have h := (c4_heading_amended ("##Title".data) (by decide)).2.1
      (by decide) (by decide)
    rw [h]; decide
  · have h := ((c4_heading_amended ("#######Title".data) (by decide)).2.2
      (by decide)).1
    rw [h]; decide
  · have h := (c4_heading_amended ("plain".data) (by decide)).1 (by decide)
    rw [h]

/-! ## C5 : cell splitting -/

/-- C5, counterexample.  The claim states that at most one pipe character
is stripped from each end before splitting, which on `"||a||"` would give
the cells `["", "a", ""]`; but `split_row "||a||" = ["a"]`: the strip
removes every leading and trailing pipe. -/
theorem c5_counterexample :
    split_row ("||a||".data) = [("a".data)] ∧
    split_row ("||a||".data) ≠ [[], ("a".data), []] := by
  constructor
  · decide
  · decide

/-- C5, amended.  Cells are obtained by trimming the line, stripping ALL
leading and trailing pipe characters (a maximal run at each end, so the
stripped core neither starts nor ends with a pipe), splitting the
remainder on pipes, and trimming each piece. -/
theorem c5_split_amended (line : Line) :
    (∃ a b, pyStrip line =
        List.replicate a '|' ++ stripPipes (pyStrip line) ++
          List.replicate b '|') ∧
    (stripPipes (pyStrip line)).head? ≠ some '|' ∧
    (stripPipes (pyStrip line)).getLast? ≠ some '|' ∧
    split_row line = (splitPipe (stripPipes (pyStrip line))).map pyStrip := by
  have hdw : ∀ u : Line, (u.dropWhile (· == '|')).head? = some '|' → False := by
    intro u h
    induction u with
    | nil => simp at h
    | cons a t ih =>
      rw [List.dropWhile_cons] at h
      by_cases ha : (a == '|') = true
      · rw [if_pos ha] at h
        exact ih h
      · rw [if_neg ha] at h
        simp only [List.head?_cons, Option.some.injEq] at h
        exact ha (by simp [h])
  have hsplit : ∀ u : Line, u =
      List.replicate (u.takeWhile (· == '|')).length '|' ++
        u.dropWhile (· == '|') := by
    intro u
    conv_lhs => rw [← List.takeWhile_append_dropWhile
      (p := fun c => c == '|') (l := u)]
    congr 1
    exact List.eq_replicate_length.mpr (fun b hb => by
      have := List.mem_takeWhile_imp hb
      simpa using this)
  have hwdec : (pyStrip line).dropWhile (· == '|') =
      stripPipes (pyStrip line) ++
        List.replicate
          ((((pyStrip line).dropWhile (· == '|')).reverse.takeWhile
            (· == '|')).length) '|' := by
    have h0 := hsplit ((pyStrip line).dropWhile (· == '|')).reverse
    have h1 := congrArg List.reverse h0
    rw [List.reverse_reverse, List.reverse_append, List.reverse_replicate] at h1
    exact h1
  refine ⟨?_, ?_, ?_, rfl⟩
  · refine ⟨((pyStrip line).takeWhile (· == '|')).length,
      (((pyStrip line).dropWhile (· == '|')).reverse.takeWhile
        (· == '|')).length, ?_⟩
    conv_lhs => rw [hsplit (pyStrip line), hwdec]
    rw [List.append_assoc]
  · cases hvr : stripPipes (pyStrip line) with
    | nil => simp
    | cons x xs =>
      have hxw : ((pyStrip line).dropWhile (· == '|')).head? = some x := by
        rw [hwdec, hvr]
        simp
      intro hcon
      simp only [List.head?_cons, Option.some.injEq] at hcon
      rw [hcon] at hxw
      exact hdw _ hxw
  · show ((((pyStrip line).dropWhile (· == '|')).reverse.dropWhile
      (· == '|')).reverse).getLast? ≠ some '|'
    rw [List.getLast?_reverse]
    exact fun hcon => hdw _ hcon

/-! ## C7 : repair guard -/

/-- C7.  `try_repair_json` is a total function on text (it always
terminates and returns a text); when the transformed result is
all-whitespace or empty, the original input text is returned unchanged,
and otherwise the transformed result is returned. -/
theorem c7_repair_total_guard (text : Line) :
    (pyStrip (repairPipeline text) = [] → try_repair_json text = text) ∧
    (pyStrip (repairPipeline text) ≠ [] →
      try_repair_json text = repairPipeline text) := by
  constructor
  · intro h
    simp [try_repair_json, repairPipeline, List.isEmpty_iff] at h ⊢
    simp [h]
  · intro h
    simp [try_repair_json, repairPipeline, List.isEmpty_iff] at h ⊢
    simp [h]

/-- C7, witness: a text whose repair strips to nothing comes back
unchanged, and one whose repair is non-empty yields the pipeline
output. -/
theorem c7_repair_total_guard_witness :
    (pyStrip (repairPipeline ("// x".data)) = [] ∧
      try_repair_json ("// x".data) = ("// x".data)) ∧
    (pyStrip (repairPipeline ("\x7ba: 1\x7d".data)) ≠ [] ∧
      try_repair_json ("\x7ba: 1\x7d".data) = repairPipeline ("\x7ba: 1\x7d".data)) := by
  have h1 : pyStrip (repairPipeline ("// x".data)) = [] := by
    simp [repairPipeline, stripLineComments, stripBlockComments,
      removeTrailingCommas, convertSingleQuotes, pyStrip, pyLstrip, pyRstrip]
  have h2 : pyStrip (repairPipeline ("\x7ba: 1\x7d".data)) ≠ [] := by
    simp [repairPipeline, stripLineComments, stripBlockComments,
      removeTrailingCommas, convertSingleQuotes, commaClose, pyStrip,
      pyLstrip, pyRstrip, wsp]
  exact ⟨⟨h1, (c7_repair_total_guard _).1 h1⟩,
    ⟨h2, (c7_repair_total_guard _).2 h2⟩⟩

/-! ## C8 : repair examples -/

/-- C8, counterexample.  The claim states that `{ "a": 1, }` repairs to
`{ "a": 1 }`; but the comma pattern `,\s*(\}|])` consumes the whitespace
between the comma and the brace, so the actual result is `{ "a": 1}`,
which differs from the claimed text by the missing space. -/
theorem c8_counterexample :
    try_repair_json ("\x7b \"a\": 1, \x7d".data) = ("\x7b \"a\": 1\x7d".data) ∧
    ("\x7b \"a\": 1\x7d".data : Line) ≠ ("\x7b \"a\": 1 \x7d".data) := by
  constructor
  · simp [try_repair_json, stripLineComments, stripBlockComments,
      removeTrailingCommas, convertSingleQuotes, commaClose, pyStrip,
      pyLstrip, pyRstrip, wsp]
  · decide

/-- C8, amended.  The repair examples with the actual outputs of
`try_repair_json`: the trailing-comma example loses the space before the
closing brace (`{ "a": 1, }` repairs to `{ "a": 1}`); the single-quote
example converts to double quotes exactly as claimed; the line-comment
example removes the comment leaving an empty first line exactly as
claimed. -/
theorem c8_repair_examples :
    try_repair_json ("\x7b \"a\": 1, \x7d".data) = ("\x7b \"a\": 1\x7d".data) ∧
    try_repair_json ('\x7b' :: '\x27' :: 'a' :: '\x27' :: ':' :: ' ' ::
        '\x27' :: 'b' :: '\x27' :: ['\x7d']) =
      ("\x7b\"a\": \"b\"\x7d".data) ∧
    try_repair_json ("// comment\n\x7b\"a\":1\x7d".data) =
      ("\n\x7b\"a\":1\x7d".data) := by
  refine ⟨?_, ?_, ?_⟩
  · simp [try_repair_json, stripLineComments, stripBlockComments,
      removeTrailingCommas, convertSingleQuotes, commaClose, pyStrip,
      pyLstrip, pyRstrip, wsp]
  · simp [try_repair_json, stripLineComments, stripBlockComments,
      removeTrailingCommas, convertSingleQuotes, matchSQ, escQ, commaClose,
      pyStrip, pyLstrip, pyRstrip, wsp]
  · simp [try_repair_json, stripLineComments, stripBlockComments,
      removeTrailingCommas, convertSingleQuotes, commaClose, pyStrip,
      pyLstrip, pyRstrip, wsp]

/-! ## C6 : table scanner -/

/-- C6, counterexample.  The claim states that a block starts at `i` only
when line `i+1` consists of pipe-delimited alignment-marker cells; but the
scanner only searches line `i+1` for a `:?-{3,}:?` substring, so a block
starts on `["a|b", "x---y|z"]` although no cell of `"x---y|z"` is an
alignment marker. -/
theorem c6_counterexample :
    find_tables ["a|b".data, "x---y|z".data] = [(0, 2)] ∧
    ((split_row ("x---y|z".data)).all isAlignMarker) = false := by
  constructor
  · simp [find_tables, findTablesAux, scanEnd]
    decide
  · decide

theorem getD_drop (n : Nat) (l : List Line) (i : Nat) :
    (l.drop n).getD i [] = l.getD (n + i) [] := by
  induction l generalizing n with
  | nil => simp
  | cons a t ih =>
    cases n with
    | zero => simp
    | succ m =>
      rw [List.drop_succ_cons, ih m]
      have : m + 1 + i = (m + i) + 1 := by omega
      rw [this, List.getD_cons_succ]

theorem takeWhile_getD_pred (p : Line → Bool) :
    ∀ (l : List Line) (i : Nat), i < (l.takeWhile p).length →
      p (l.getD i []) = true := by
  intro l
  induction l with
  | nil => intro i h; simp at h
  | cons a t ih =>
    intro i h
    rw [List.takeWhile_cons] at h
    by_cases hp : p a = true
    · rw [if_pos hp] at h
      cases i with
      | zero => simpa using hp
      | succ j =>
        rw [List.getD_cons_succ]
        exact ih j (by simpa using Nat.lt_of_succ_lt_succ (by simpa using h))
    · rw [if_neg hp] at h
      simp at h

theorem takeWhile_stop (p : Line → Bool) :
    ∀ l : List Line, (l.takeWhile p).length < l.length →
      p (l.getD (l.takeWhile p).length []) = false := by
  intro l
  induction l with
  | nil => intro h; simp at h
  | cons a t ih =>
    intro h
    rw [List.takeWhile_cons] at h ⊢
    by_cases hp : p a = true
    · rw [if_pos hp] at h ⊢
      simp only [List.length_cons, List.getD_cons_succ]
      simp only [List.length_cons] at h
      exact ih (by omega)
    · rw [if_neg hp] at h ⊢
      simp only [List.length_nil, List.getD_cons_zero]
      exact Bool.not_eq_true _ ▸ hp

theorem scanEnd_ge (lines : List Line) (k : Nat) : k ≤ scanEnd lines k :=
  Nat.le_add_right _ _

theorem scanEnd_le (lines : List Line) (k : Nat) :
    scanEnd lines k ≤ max k lines.length := by
  have h1 : ((lines.drop k).takeWhile blockPred).length ≤
      (lines.drop k).length := (List.takeWhile_sublist _).length_le
  have h2 : (lines.drop k).length = lines.length - k := List.length_drop k lines
  unfold scanEnd
  omega

theorem scanEnd_mem (lines : List Line) (k m : Nat) (h1 : k ≤ m)
    (h2 : m < scanEnd lines k) : blockPred (lines.getD m []) = true := by
  unfold scanEnd at h2
  have hlt : m - k < ((lines.drop k).takeWhile blockPred).length := by omega
  have := takeWhile_getD_pred blockPred (lines.drop k) (m - k) hlt
  rw [getD_drop] at this
  have hm : k + (m - k) = m := by omega
  rwa [hm] at this

theorem scanEnd_stop (lines : List Line) (k : Nat)
    (h : scanEnd lines k < lines.length) :
    blockPred (lines.getD (scanEnd lines k) []) = false := by
  have h2 : (lines.drop k).length = lines.length - k := List.length_drop k lines
  have hlt : ((lines.drop k).takeWhile blockPred).length <
      (lines.drop k).length := by
    unfold scanEnd at h
    omega
  have := takeWhile_stop blockPred (lines.drop k) hlt
  rw [getD_drop] at this
  exact this

theorem find_tables_sound (lines : List Line) (i k : Nat)
    (h : (i, k) ∈ find_tables lines) :
    i + 1 < lines.length ∧
    hasPipe (lines.getD i []) = true ∧
    hasPipe (lines.getD (i + 1) []) = true ∧
    dash3 (lines.getD (i + 1) []) = true ∧
    i + 2 ≤ k ∧ k ≤ lines.length ∧
    (∀ m, i + 2 ≤ m → m < k → blockPred (lines.getD m []) = true) ∧
    (k < lines.length → blockPred (lines.getD k []) = false) := by
  suffices hgen : ∀ i0, (i, k) ∈ findTablesAux lines i0 →
      (i + 1 < lines.length ∧
       hasPipe (lines.getD i []) = true ∧
       hasPipe (lines.getD (i + 1) []) = true ∧
       dash3 (lines.getD (i + 1) []) = true ∧
       i + 2 ≤ k ∧ k ≤ lines.length ∧
       (∀ m, i + 2 ≤ m → m < k → blockPred (lines.getD m []) = true) ∧
       (k < lines.length → blockPred (lines.getD k []) = false)) by
    exact hgen 0 h
  intro i0
  induction i0 using findTablesAux.induct lines with
  | case1 x hx1 hx2 hx3 kk ih =>
    intro hmem
    unfold findTablesAux at hmem
    rw [dif_pos hx1, if_pos hx2, if_pos hx3] at hmem
    rcases List.mem_cons.mp hmem with heq | htail
    · have hi : i = x := (Prod.mk.injEq _ _ _ _ ▸ heq).1
      have hk : k = scanEnd lines (x + 2) := (Prod.mk.injEq _ _ _ _ ▸ heq).2
      subst hi
      have hx3' := (Bool.and_eq_true _ _).mp hx3
      refine ⟨hx1, hx2, hx3'.1, hx3'.2, ?_, ?_, ?_, ?_⟩
      · rw [hk]; exact scanEnd_ge lines (i + 2)
      · rw [hk]
        have := scanEnd_le lines (i + 2)
        omega
      · intro m hm1 hm2
        exact scanEnd_mem lines (i + 2) m hm1 (hk ▸ hm2)
      · intro hkn
        rw [hk]
        exact scanEnd_stop lines (i + 2) (hk ▸ hkn)
    · exact ih htail
  | case2 x hx1 hx2 hx3 ih =>
    intro hmem
    unfold findTablesAux at hmem
    rw [dif_pos hx1, if_pos hx2, if_neg hx3] at hmem
    exact ih hmem
  | case3 x hx1 hx2 ih =>
    intro hmem
    unfold findTablesAux at hmem
    rw [dif_pos hx1, if_neg hx2] at hmem
    exact ih hmem
  | case4 x hx1 =>
    intro hmem
    unfold findTablesAux at hmem
    rw [dif_neg hx1] at hmem
    simp at hmem

/-- C6, amended.  Soundness of the scanner: every reported range `(i, k)`
starts at a line containing a pipe whose successor line exists, contains a
pipe and contains a three-dash substring (the `:?-{3,}:?` search — NOT a
full pipe-delimited alignment-marker check); the block then extends
through lines containing a pipe and non-blank, `k` being the document end
or the first failing line. -/
theorem c6_scanner_amended (lines : List Line) (i k : Nat)
    (h : (i, k) ∈ find_tables lines) :
    i + 1 < lines.length ∧
    hasPipe (lines.getD i []) = true ∧
    hasPipe (lines.getD (i + 1) []) = true ∧
    dash3 (lines.getD (i + 1) []) = true ∧
    i + 2 ≤ k ∧ k ≤ lines.length ∧
    (∀ m, i + 2 ≤ m → m < k → blockPred (lines.getD m []) = true) ∧
    (k < lines.length → blockPred (lines.getD k []) = false) :=
  find_tables_sound lines i k h

/-- C6, witness for the amended theorem at a concrete document. -/
theorem c6_scanner_amended_witness :
    (0, 2) ∈ find_tables ["a|b".data, "x---y|z".data] ∧
    hasPipe ((["a|b".data, "x---y|z".data] : List Line).getD 1 []) = true ∧
    dash3 ((["a|b".data, "x---y|z".data] : List Line).getD 1 []) = true := by
  have heq : find_tables ["a|b".data, "x---y|z".data] = [(0, 2)] := by
    simp [find_tables, findTablesAux, scanEnd]
    decide
  have hmem : (0, 2) ∈ find_tables ["a|b".data, "x---y|z".data] := by
    rw [heq]; exact List.mem_singleton.mpr rfl
  obtain ⟨_, _, h3, h4, _⟩ := c6_scanner_amended _ 0 2 hmem
  exact ⟨hmem, h3, h4⟩

/-! ## C3 : table validator -/

theorem firstBadRow_spec (ncols : Nat) :
    ∀ (rows : List (List Line)) (j0 : Nat),
      firstBadRow ncols j0 rows =
        (List.findIdx? (fun r => r.length != ncols) rows).map
          (fun j => (j0 + j, (rows.getD j []).length)) := by
  intro rows
  induction rows with
  | nil => intro j0; simp [firstBadRow]
  | cons r rs ih =>
    intro j0
    rw [firstBadRow, List.findIdx?_cons]
    by_cases hp : r.length = ncols
    · rw [if_neg (by simpa using hp), if_neg (by simpa using hp),
        List.findIdx?_succ, ih (j0 + 1), Option.map_map]
      cases List.findIdx? (fun r => r.length != ncols) rs with
      | none => rfl
      | some j =>
        simp only [Option.map_some', Function.comp]
        have : j0 + 1 + j = j0 + (j + 1) := by omega
        rw [this]
        rfl
    · rw [if_pos (by simpa using hp), if_pos (by simpa using hp)]
      simp

theorem validate_table_true_shape (rows : List (List Line)) (sep : Line)
    (msg : TableMsg)
    (hv : validate_table rows (some sep) = some (true, msg)) :
    rows ≠ [] ∧
    (∀ r ∈ rows, r.length = (rows.headD []).length) ∧
    (split_row sep).length = (rows.headD []).length ∧
    (∀ p ∈ split_row sep, isAlignMarker p = true) ∧ msg = TableMsg.valid := by
  cases rows with
  | nil => simp [validate_table] at hv
  | cons h t =>
    rw [validate_table, firstBadRow_spec] at hv
    cases hidx : List.findIdx? (fun r => r.length != h.length) (h :: t) with
    | some j => rw [hidx] at hv; simp at hv
    | none =>
      rw [hidx] at hv
      rw [show Option.map (fun j => (0 + j, ((h :: t).getD j []).length))
            none = none from rfl] at hv
      by_cases hlen : (split_row sep).length = h.length
      · rw [if_neg (by omega)] at hv
        cases hfind : (split_row sep).find? (fun q => !isAlignMarker q) with
        | some p => rw [hfind] at hv; simp at hv
        | none =>
          rw [hfind] at hv
          refine ⟨by simp, ?_, by simpa using hlen, ?_, ?_⟩
          · intro r hr
            have := List.findIdx?_eq_none_iff.mp hidx r hr
            simpa using this
          · intro p hp
            have := List.find?_eq_none.mp hfind p hp
            simpa using this
          · simpa using hv.symm
      · rw [if_pos (by omega)] at hv
        simp at hv

theorem validate_table_ok_of_shape (rows : List (List Line)) (sep : Line)
    (hne : rows ≠ [])
    (hall : ∀ r ∈ rows, r.length = (rows.headD []).length)
    (hlen : (split_row sep).length = (rows.headD []).length)
    (hmark : ∀ p ∈ split_row sep, isAlignMarker p = true) :
    validate_table rows (some sep) = some (true, TableMsg.valid) := by
  cases rows with
  | nil => exact absurd rfl hne
  | cons h t =>
    rw [validate_table, firstBadRow_spec]
    have hidx : List.findIdx? (fun r => r.length != h.length) (h :: t) = none :=
      List.findIdx?_eq_none_iff.mpr (fun r hr => by
        simp only [bne_eq_false_iff_eq]
        simpa using hall r hr)
    rw [hidx]
    rw [show Option.map (fun j => (0 + j, ((h :: t).getD j []).length))
          none = none from rfl]
    rw [if_neg (by simp at hlen; omega)]
    have hfind : (split_row sep).find? (fun q => !isAlignMarker q) = none :=
      List.find?_eq_none.mpr (fun p hp => by simp [hmark p hp])
    rw [hfind]

/-- C3.  The table validator, with the separator present: it reports
`Empty table` for an empty row list; otherwise, with `ncols` the header
cell count, it reports the first row whose cell count differs (1-based
index, actual and expected counts); otherwise a separator segment-count
mismatch; otherwise the first separator segment that is not an alignment
marker; otherwise success — and the success outcome holds exactly when
rows are non-empty, all rows have the header cell count, the separator
segment count equals it, and every segment matches `^:?-{3,}:?$`. -/
theorem c3_validate_table_spec (rows : List (List Line)) (sep : Line) :
    (rows = [] →
      validate_table rows (some sep) = some (false, TableMsg.emptyTable)) ∧
    (∀ h t, rows = h :: t →
      (∀ j, List.findIdx? (fun r => r.length != h.length) rows = some j →
        validate_table rows (some sep) =
          some (false, TableMsg.colMismatch (j + 1) (rows.getD j []).length
            h.length)) ∧
      (List.findIdx? (fun r => r.length != h.length) rows = none →
        (split_row sep).length ≠ h.length →
        validate_table rows (some sep) =
          some (false, TableMsg.sepCount (split_row sep).length h.length)) ∧
      (List.findIdx? (fun r => r.length != h.length) rows = none →
        (split_row sep).length = h.length →
        ∀ p, (split_row sep).find? (fun q => !isAlignMarker q) = some p →
          validate_table rows (some sep) =
            some (false, TableMsg.badSegment p))) ∧
    (validate_table rows (some sep) = some (true, TableMsg.valid) ↔
      (rows ≠ [] ∧
       (∀ r ∈ rows, r.length = (rows.headD []).length) ∧
       (split_row sep).length = (rows.headD []).length ∧
       (∀ p ∈ split_row sep, isAlignMarker p = true))) := by
  refine ⟨?_, ?_, ?_⟩
  · intro h0
    subst h0
    rfl
  · intro h t hrows
    subst hrows
    refine ⟨?_, ?_, ?_⟩
    · intro j hj
      rw [validate_table, firstBadRow_spec, hj]
      simp
    · intro hnone hne
      rw [validate_table, firstBadRow_spec, hnone]
      simp [hne]
    · intro hnone heq p hp
      rw [validate_table, firstBadRow_spec, hnone]
      simp [heq, hp]
  · constructor
    · intro hv
      obtain ⟨h1, h2, h3, h4, _⟩ := validate_table_true_shape rows sep _ hv
      exact ⟨h1, h2, h3, h4⟩
    · rintro ⟨hne, hall, hlen, hmark⟩
      exact validate_table_ok_of_shape rows sep hne hall hlen hmark

/-- C3, witness: the spec applied at a valid table and at a table with a
3-cell data row against a 2-cell header. -/
theorem c3_validate_table_spec_witness :
    validate_table [["a".data, "b".data], ["1".data, "2".data]]
        (some ("---|---".data)) = some (true, TableMsg.valid) ∧
    validate_table [["a".data, "b".data], ["1".data, "2".data, "3".data]]
        (some ("---|---".data)) = some (false, TableMsg.colMismatch 2 3 2) := by
  constructor
  · exact (c3_validate_table_spec
      [["a".data, "b".data], ["1".data, "2".data]] ("---|---".data)).2.2.mpr
      (by refine ⟨by simp, ?_, by decide, by decide⟩
          intro r hr
          fin_cases hr <;> decide)
  · have h := ((c3_validate_table_spec
      [["a".data, "b".data], ["1".data, "2".data, "3".data]]
      ("---|---".data)).2.1 _ _ rfl).1 1 (by decide)
    simpa using h

/-! ## C9 : table formatter -/

theorem updWidths_ok :
    ∀ (ws : List Nat) (r : List Line), r.length ≤ ws.length →
      ∃ ws', updWidths ws r = some ws' ∧ ws'.length = ws.length ∧
        ∀ i, ws'.getD i 0 = max (ws.getD i 0) (r.getD i []).length := by
  intro ws
  induction ws with
  | nil =>
    intro r hr
    have : r = [] := List.length_eq_zero.mp (Nat.le_zero.mp hr)
    subst this
    exact ⟨[], rfl, rfl, fun i => by simp⟩
  | cons w wt ih =>
    intro r hr
    cases r with
    | nil =>
      refine ⟨w :: wt, rfl, rfl, fun i => ?_⟩
      cases i <;> simp
    | cons c rt =>
      obtain ⟨ws', h1, h2, h3⟩ := ih rt (by simpa using hr)
      refine ⟨max w c.length :: ws', ?_, by simpa using h2, fun i => ?_⟩
      · rw [updWidths, h1]
        rfl
      · cases i with
        | zero => simp
        | succ j => simpa using h3 j

theorem foldl_widths :
    ∀ (rows : List (List Line)) (acc : List Nat),
      (∀ r ∈ rows, r.length ≤ acc.length) →
      ∃ ws, rows.foldlM updWidths acc = some ws ∧ ws.length = acc.length ∧
        ∀ i, ws.getD i 0 =
          max (acc.getD i 0)
            ((rows.map (fun r => (r.getD i []).length)).foldr max 0) := by
  intro rows
  induction rows with
  | nil =>
    intro acc _
    exact ⟨acc, rfl, rfl, fun i => by simp⟩
  | cons r rs ih =>
    intro acc hlen
    obtain ⟨acc', h1, h2, h3⟩ := updWidths_ok acc r (hlen r (by simp))
    obtain ⟨ws, g1, g2, g3⟩ := ih acc' (fun x hx => h2 ▸ hlen x (by simp [hx]))
    refine ⟨ws, ?_, by omega, fun i => ?_⟩
    · rw [List.foldlM_cons, h1]
      exact g1
    · rw [g3 i, h3 i, List.map_cons, List.foldr_cons]
      omega

theorem getD_replicate_zero (n i : Nat) :
    (List.replicate n (0 : Nat)).getD i 0 = 0 := by
  induction n generalizing i with
  | zero => simp
  | succ m ih =>
    cases i with
    | zero => simp [List.replicate_succ]
    | succ j => simpa [List.replicate_succ] using ih j

/-- C9.  For every non-empty valid row list (every row has the header's
cell count), `format_table` succeeds; the widths are exactly the
per-column maxima of the cell lengths over header and data rows; and the
output is the header row, then a separator row of `max 3 width` dashes
per column, then each data row, every row rendered as
`| c1 | c2 | ... |` with each cell padded on the right to its column
width — rows and columns in order, cell content unchanged apart from the
padding. -/
theorem c9_format_table_spec (rows : List (List Line)) (hne : rows ≠ [])
    (hv : ∀ r ∈ rows, r.length = (rows.headD []).length) :
    ∃ ws : List Nat,
      computeWidths (rows.headD []).length rows = some ws ∧
      ws.length = (rows.headD []).length ∧
      (∀ i, ws.getD i 0 =
        (rows.map (fun r => (r.getD i []).length)).foldr max 0) ∧
      format_table rows = some (joinNl (
        ('|' :: ' ' :: List.intercalate [' ', '|', ' ']
            (List.zipWith (fun c w => c ++ List.replicate (w - c.length) ' ')
              (rows.headD []) ws) ++ [' ', '|']) ::
        ('|' :: ' ' :: List.intercalate [' ', '|', ' ']
            (ws.map (fun w => List.replicate (max 3 w) '-')) ++ [' ', '|']) ::
        rows.tail.map (fun r =>
          '|' :: ' ' :: List.intercalate [' ', '|', ' ']
            (List.zipWith (fun c w => c ++ List.replicate (w - c.length) ' ')
              r ws) ++ [' ', '|']))) := by
  cases rows with
  | nil => exact absurd rfl hne
  | cons h t =>
    obtain ⟨ws, h1, h2, h3⟩ := foldl_widths (h :: t)
      (List.replicate h.length 0)
      (fun r hr => by
        rw [List.length_replicate]
        exact Nat.le_of_eq (by simpa using hv r hr))
    refine ⟨ws, ?_, ?_, fun i => ?_, ?_⟩
    · simpa [computeWidths] using h1
    · simpa using h2
    · rw [h3 i, getD_replicate_zero]
      simp
    · rw [format_table]
      have hcw : computeWidths h.length (h :: t) = some ws := by
        simpa [computeWidths] using h1
      rw [hcw]
      simp only [Option.map_some']
      rfl

/-- C9, witness at the header `["a","bb"]` with data row `["1","22"]`. -/
theorem c9_format_table_spec_witness :
    (∀ r ∈ ([["a".data, "bb".data], ["1".data, "22".data]] :
        List (List Line)), r.length =
          (([["a".data, "bb".data], ["1".data, "22".data]] :
            List (List Line)).headD []).length) ∧
    format_table [["a".data, "bb".data], ["1".data, "22".data]] =
      some ("| a | bb |\n| --- | --- |\n| 1 | 22 |".data) := by
  refine ⟨by intro r hr; fin_cases hr <;> decide, ?_⟩
  obtain ⟨ws, h1, _, _, h4⟩ := c9_format_table_spec
    [["a".data, "bb".data], ["1".data, "22".data]] (by decide)
    (by intro r hr; fin_cases hr <;> decide)
  have hws : ws = [1, 2] := by
    have : computeWidths 2 [["a".data, "bb".data], ["1".data, "22".data]] =
        some [1, 2] := by decide
    have h1' : computeWidths 2 [["a".data, "bb".data], ["1".data, "22".data]] =
        some ws := h1
    rw [this] at h1'
    exact (Option.some.injEq _ _ ▸ h1').symm
  rw [h4, hws]
  decide

/-! ## C10 : scanner vs second-pass block selection -/

theorem dropWhile_eq_drop_takeWhile (p : Line → Bool) :
    ∀ l : List Line, l.dropWhile p = l.drop (l.takeWhile p).length := by
  intro l
  induction l with
  | nil => simp
  | cons a t ih =>
    rw [List.dropWhile_cons, List.takeWhile_cons]
    by_cases hp : p a = true
    · rw [if_pos hp, if_pos hp, List.length_cons, List.drop_succ_cons, ih]
    · rw [if_neg hp, if_neg hp]
      rfl

theorem pass2Ranges_nil (i : Nat) : pass2Ranges i [] = [] := by
  rw [pass2Ranges]

theorem pass2Ranges_cons (i : Nat) (l : Line) (rest : List Line) :
    pass2Ranges i (l :: rest) =
      if startCond l rest = true then
        (i, i + ((l :: rest).takeWhile blockPred).length) ::
          pass2Ranges (i + ((l :: rest).takeWhile blockPred).length)
            ((l :: rest).dropWhile blockPred)
      else pass2Ranges (i + 1) rest := by
  rw [pass2Ranges]
  split
  · rfl
  · rfl

/-- C10.  The inline block scan of the second pass of `format_md_file`
selects exactly the `(start, end)` ranges that `find_tables` reports on
the same line sequence. -/
theorem c10_ranges_agree (lines : List Line) :
    pass2Ranges 0 lines = find_tables lines := by
  suffices hgen : ∀ i, pass2Ranges i (lines.drop i) = findTablesAux lines i by
    simpa using hgen 0
  intro i
  induction i using findTablesAux.induct lines with
  | case1 x hx1 hx2 hx3 kk ih =>
    have hx : x < lines.length := by omega
    have hdropx : lines.drop x = lines[x] :: lines.drop (x + 1) :=
      List.drop_eq_getElem_cons hx
    have hdropx1 : lines.drop (x + 1) = lines[x + 1] :: lines.drop (x + 2) :=
      List.drop_eq_getElem_cons hx1
    have hgx : lines.getD x [] = lines[x] := List.getD_eq_getElem lines [] hx
    have hgx1 : lines.getD (x + 1) [] = lines[x + 1] :=
      List.getD_eq_getElem lines [] hx1
    have hx3' := (Bool.and_eq_true _ _).mp hx3
    have ha : hasPipe lines[x] = true := by rw [← hgx]; exact hx2
    have hb : hasPipe lines[x + 1] = true := by rw [← hgx1]; exact hx3'.1
    have hc : dash3 lines[x + 1] = true := by rw [← hgx1]; exact hx3'.2
    have hsc : startCond lines[x] (lines.drop (x + 1)) = true := by
      rw [startCond, hdropx1]
      simp only [List.head?_cons]
      rw [ha, hb, hc]
      rfl
    have hbp0 : blockPred lines[x] = true := blockPred_of_hasPipe ha
    have hbp1 : blockPred lines[x + 1] = true := blockPred_of_hasPipe hb
    have htw : ((lines.drop x).takeWhile blockPred).length =
        2 + ((lines.drop (x + 2)).takeWhile blockPred).length := by
      rw [hdropx, List.takeWhile_cons, if_pos hbp0, hdropx1,
        List.takeWhile_cons, if_pos hbp1]
      simp only [List.length_cons]
      omega
    have hdw : (lines.drop x).dropWhile blockPred =
        lines.drop (scanEnd lines (x + 2)) := by
      rw [dropWhile_eq_drop_takeWhile, htw, List.drop_drop]
      unfold scanEnd
      congr 1
      omega
    have hend : x + ((lines.drop x).takeWhile blockPred).length =
        scanEnd lines (x + 2) := by
      rw [htw]
      unfold scanEnd
      omega
    rw [hdropx, pass2Ranges_cons, if_pos hsc]
    unfold findTablesAux
    rw [dif_pos hx1, if_pos hx2, if_pos hx3]
    rw [← hdropx, hdw, hend]
    exact congrArg (List.cons (x, scanEnd lines (x + 2))) ih
  | case2 x hx1 hx2 hx3 ih =>
    have hx : x < lines.length := by omega
    have hdropx : lines.drop x = lines[x] :: lines.drop (x + 1) :=
      List.drop_eq_getElem_cons hx
    have hdropx1 : lines.drop (x + 1) = lines[x + 1] :: lines.drop (x + 2) :=
      List.drop_eq_getElem_cons hx1
    have hgx1 : lines.getD (x + 1) [] = lines[x + 1] :=
      List.getD_eq_getElem lines [] hx1
    have hb : (hasPipe lines[x + 1] && dash3 lines[x + 1]) = false := by
      rw [← hgx1]
      revert hx3
      cases hasPipe (lines.getD (x + 1) []) && dash3 (lines.getD (x + 1) []) <;>
        simp
    have hsc : startCond lines[x] (lines.drop (x + 1)) = false := by
      rw [startCond, hdropx1]
      simp only [List.head?_cons]
      rw [hb]
      simp
    rw [hdropx, pass2Ranges_cons,
      if_neg (by simp [hsc])]
    unfold findTablesAux
    rw [dif_pos hx1, if_pos hx2, if_neg hx3]
    exact ih
  | case3 x hx1 hx2 ih =>
    have hx : x < lines.length := by omega
    have hdropx : lines.drop x = lines[x] :: lines.drop (x + 1) :=
      List.drop_eq_getElem_cons hx
    have hgx : lines.getD x [] = lines[x] := List.getD_eq_getElem lines [] hx
    have ha : hasPipe lines[x] = false := by
      rw [← hgx]
      revert hx2
      cases hasPipe (lines.getD x []) <;> simp
    have hsc : startCond lines[x] (lines.drop (x + 1)) = false := by
      rw [startCond, ha]
      simp
    rw [hdropx, pass2Ranges_cons,
      if_neg (by simp [hsc])]
    unfold findTablesAux
    rw [dif_pos hx1, if_neg hx2]
    exact ih
  | case4 x hx1 =>
    unfold findTablesAux
    rw [dif_neg hx1]
    cases hdx : lines.drop x with
    | nil => exact pass2Ranges_nil x
    | cons a t =>
      have ht : t = [] := by
        have h1 : (lines.drop x).length = lines.length - x :=
          List.length_drop x lines
        rw [hdx] at h1
        simp only [List.length_cons] at h1
        have h2 : t.length = 0 := by omega
        exact List.length_eq_zero.mp h2
      subst ht
      rw [pass2Ranges_cons]
      rw [if_neg (by simp [startCond])]
      exact pass2Ranges_nil (x + 1)

/-! ## C2 : no uncaught faults in the core -/

theorem isSome_map {α β : Type} (o : Option α) (f : α → β) :
    (o.map f).isSome = o.isSome := by
  cases o <;> rfl

theorem startCond_shape {l : Line} {rest : List Line}
    (h : startCond l rest = true) :
    ∃ l2 rest2, rest = l2 :: rest2 ∧ hasPipe l = true ∧
      hasPipe l2 = true ∧ dash3 l2 = true := by
  rw [startCond] at h
  obtain ⟨h1, h2⟩ := (Bool.and_eq_true _ _).mp h
  cases rest with
  | nil => simp at h2
  | cons l2 rest2 =>
    simp only [List.head?_cons] at h2
    obtain ⟨h3, h4⟩ := (Bool.and_eq_true _ _).mp h2
    exact ⟨l2, rest2, rfl, h1, h3, h4⟩

theorem takeWhile_block_cons2 {l l2 : Line} {rest2 : List Line}
    (h1 : hasPipe l = true) (h2 : hasPipe l2 = true) :
    (l :: l2 :: rest2).takeWhile blockPred =
      l :: l2 :: rest2.takeWhile blockPred := by
  rw [List.takeWhile_cons, if_pos (blockPred_of_hasPipe h1),
    List.takeWhile_cons, if_pos (blockPred_of_hasPipe h2)]

theorem validate_table_isSome (rows : List (List Line)) (sep : Line) :
    (validate_table rows (some sep)).isSome = true := by
  cases rows with
  | nil => rfl
  | cons h t =>
    rw [validate_table]
    cases hfb : firstBadRow h.length 0 (h :: t) with
    | some pr =>
      obtain ⟨idx, len⟩ := pr
      rfl
    | none =>
      dsimp only
      split
      · rfl
      · cases hf : (split_row sep).find? (fun q => !isAlignMarker q) with
        | some p => rfl
        | none => rfl

theorem format_table_some_of_shape (rows : List (List Line))
    (hv : ∀ r ∈ rows, r.length = (rows.headD []).length) :
    (format_table rows).isSome = true := by
  cases rows with
  | nil => rfl
  | cons h t =>
    obtain ⟨ws, h1, _, _⟩ := foldl_widths (h :: t) (List.replicate h.length 0)
      (fun r hr => by
        rw [List.length_replicate]
        exact Nat.le_of_eq (by simpa using hv r hr))
    rw [format_table]
    have hcw : computeWidths h.length (h :: t) = some ws := by
      simpa [computeWidths] using h1
    rw [hcw]
    rfl

theorem pass2_nilE : pass2 [] = some [] := by
  rw [pass2]

theorem pass2_cons_block (l : Line) (rest : List Line)
    (hsc : startCond l rest = true) :
    pass2 (l :: rest) =
      match validate_table
          (parse_table_block ((l :: rest).takeWhile blockPred)).1
          (parse_table_block ((l :: rest).takeWhile blockPred)).2 with
      | none => none
      | some (ok, _) =>
        if ok then
          match format_table
              (parse_table_block ((l :: rest).takeWhile blockPred)).1 with
          | none => none
          | some f =>
            (pass2 ((l :: rest).dropWhile blockPred)).map
              (fun o => pySplitlines f ++ o)
        else
          (pass2 ((l :: rest).dropWhile blockPred)).map
            (fun o => (l :: rest).takeWhile blockPred ++ o) := by
  rw [pass2, dif_pos hsc]

theorem pass2_cons_noblock (l : Line) (rest : List Line)
    (hsc : startCond l rest = false) :
    pass2 (l :: rest) = (pass2 rest).map (fun o => l :: o) := by
  rw [pass2, dif_neg (by simp [hsc])]

theorem pass2_total : ∀ ls : List Line, (pass2 ls).isSome = true := by
  intro ls
  induction ls using pass2.induct with
  | case1 => rw [pass2_nilE]; rfl
  | case2 l rest hsc blk pr hval =>
    exfalso
    obtain ⟨l2, rest2, hrest, h1, h2, _⟩ := startCond_shape hsc
    subst hrest
    have hval' : validate_table
        (parse_table_block ((l :: l2 :: rest2).takeWhile blockPred)).1
        (parse_table_block ((l :: l2 :: rest2).takeWhile blockPred)).2 =
          none := hval
    rw [takeWhile_block_cons2 h1 h2] at hval'
    rw [show parse_table_block (l :: l2 :: rest2.takeWhile blockPred) =
        (split_row l :: (rest2.takeWhile blockPred).map split_row,
          some (pyStrip l2)) from rfl] at hval'
    have := validate_table_isSome
      (split_row l :: (rest2.takeWhile blockPred).map split_row) (pyStrip l2)
    rw [hval'] at this
    simp at this
  | case3 l rest hsc blk pr snd hfmt hval =>
    exfalso
    obtain ⟨l2, rest2, hrest, h1, h2, _⟩ := startCond_shape hsc
    subst hrest
    have hval' : validate_table
        (parse_table_block ((l :: l2 :: rest2).takeWhile blockPred)).1
        (parse_table_block ((l :: l2 :: rest2).takeWhile blockPred)).2 =
          some (true, snd) := hval
    have hfmt' : format_table
        (parse_table_block ((l :: l2 :: rest2).takeWhile blockPred)).1 =
          none := hfmt
    rw [takeWhile_block_cons2 h1 h2] at hval' hfmt'
    rw [show parse_table_block (l :: l2 :: rest2.takeWhile blockPred) =
        (split_row l :: (rest2.takeWhile blockPred).map split_row,
          some (pyStrip l2)) from rfl] at hval' hfmt'
    obtain ⟨_, hall, _, _, _⟩ := validate_table_true_shape _ _ _ hval'
    have := format_table_some_of_shape _ hall
    rw [hfmt'] at this
    simp at this
  | case4 l rest hsc blk rest' pr snd f hfmt hval ih =>
    have hval' : validate_table
        (parse_table_block ((l :: rest).takeWhile blockPred)).1
        (parse_table_block ((l :: rest).takeWhile blockPred)).2 =
          some (true, snd) := hval
    have hfmt' : format_table
        (parse_table_block ((l :: rest).takeWhile blockPred)).1 =
          some f := hfmt
    have ih' : (pass2 ((l :: rest).dropWhile blockPred)).isSome = true := ih
    rw [pass2_cons_block l rest hsc, hval']
    dsimp only
    rw [if_pos rfl, hfmt', isSome_map]
    exact ih'
  | case5 l rest hsc blk rest' pr ok snd hval hok ih =>
    have hval' : validate_table
        (parse_table_block ((l :: rest).takeWhile blockPred)).1
        (parse_table_block ((l :: rest).takeWhile blockPred)).2 =
          some (ok, snd) := hval
    have ih' : (pass2 ((l :: rest).dropWhile blockPred)).isSome = true := ih
    rw [pass2_cons_block l rest hsc, hval']
    dsimp only
    rw [if_neg hok, isSome_map]
    exact ih'
  | case6 l rest hsc ih =>
    rw [pass2_cons_noblock l rest (by simpa using hsc), isSome_map]
    exact ih

theorem format_md_core_total (text : Line) :
    (format_md_core text).isSome = true := by
  rw [format_md_core, isSome_map]
  exact pass2_total _

theorem validateMdBlock_isSome (lines : List Line) (i k : Nat)
    (h2 : 2 ≤ k - i) (hk : k ≤ lines.length) :
    (validateMdBlock lines (i, k)).isSome = true := by
  have hlen : (((lines.drop i).take (k - i)).map rstripNl).length = k - i := by
    rw [List.length_map, List.length_take, List.length_drop]
    omega
  cases hblk : ((lines.drop i).take (k - i)).map rstripNl with
  | nil => rw [hblk] at hlen; simp at hlen; omega
  | cons a t =>
    cases t with
    | nil => rw [hblk] at hlen; simp at hlen; omega
    | cons b t2 =>
      rw [validateMdBlock]
      dsimp only
      rw [hblk]
      rw [show parse_table_block (a :: b :: t2) =
          (split_row a :: t2.map split_row, some (pyStrip b)) from rfl]
      rw [isSome_map]
      exact validate_table_isSome _ _

theorem foldlM_validate_isSome (lines : List Line) :
    ∀ (rs : List (Nat × Nat)) (acc : List (Nat × Nat × TableMsg)),
      (∀ r ∈ rs, (validateMdBlock lines r).isSome = true) →
      ((rs.foldlM (fun acc r =>
          (validateMdBlock lines r).map (fun om =>
            match om with
            | none => acc
            | some pb => acc ++ [pb])) acc)).isSome = true := by
  intro rs
  induction rs with
  | nil => intro acc _; rfl
  | cons r rt ih =>
    intro acc hall
    rw [List.foldlM_cons]
    have h1 := hall r (by simp)
    cases hvb : validateMdBlock lines r with
    | none => simp [hvb] at h1
    | some om =>
      exact ih _ (fun x hx => hall x (by simp [hx]))

theorem validate_md_core_total (lines : List Line) :
    (validate_md_core lines).isSome = true := by
  rw [validate_md_core]
  apply foldlM_validate_isSome
  intro r hr
  obtain ⟨i, k⟩ := r
  obtain ⟨_, _, _, _, h5, h6, _, _⟩ := find_tables_sound lines i k hr
  exact validateMdBlock_isSome lines i k (by omega) h6

/-- C2.  The core operations never fault on malformed content: the
Markdown format core and validate core always produce a result (the
modelled index/attribute faults are unreachable); the JSON repair always
returns one of two texts (the original or the transformed one); the JSON
diagnostic reports success exactly when the oracle parse succeeds; and a
`none` from the JSON format core is the reported both-parses-failed
outcome, not a fault. -/
theorem c2_no_uncaught_faults :
    (∀ text : Line, (format_md_core text).isSome = true) ∧
    (∀ lines : List Line, (validate_md_core lines).isSome = true) ∧
    (∀ text : Line, try_repair_json text = text ∨
      try_repair_json text = repairPipeline text) ∧
    (∀ (V E : Type) (parse : Line → Except E V) (text : Line),
      (detect_json_errors parse text).1 = true ↔ ∃ v, parse text = .ok v) ∧
    (∀ (V E : Type) (parse : Line → Except E V) (serialize : V → Line)
        (text : Line),
      format_json_core parse serialize text = none →
        (∃ e, parse text = .error e) ∧
        (∃ e, parse (try_repair_json text) = .error e)) := by
  refine ⟨format_md_core_total, validate_md_core_total, ?_, ?_, ?_⟩
  · intro text
    have he : try_repair_json text =
        if (pyStrip (repairPipeline text)).isEmpty = true then text
        else repairPipeline text := rfl
    rw [he]
    split
    · left; rfl
    · right; rfl
  · intro V E parse text
    rw [detect_json_errors]
    cases hp : parse text with
    | ok v => simp [hp]
    | error e => simp [hp]
  · intro V E parse serialize text hnone
    rw [format_json_core] at hnone
    cases hp : parse text with
    | ok v => rw [hp] at hnone; simp at hnone
    | error e =>
      rw [hp] at hnone
      cases hq : parse (try_repair_json text) with
      | ok v => rw [hq] at hnone; simp at hnone
      | error e2 => exact ⟨⟨e, rfl⟩, ⟨e2, rfl⟩⟩

/-- C2, witness: the Markdown cores on a concrete document, the repair
disjunction on a concrete text, and the JSON parts at a concrete oracle
that rejects everything. -/
theorem c2_no_uncaught_faults_witness :
    (format_md_core ("|a|\n|--|x\n|b|".data)).isSome = true ∧
    (validate_md_core ["|a|".data, "---|---".data, "|b|".data]).isSome = true ∧
    (try_repair_json ("// x".data) = ("// x".data) ∨
      try_repair_json ("// x".data) = repairPipeline ("// x".data)) ∧
    ((detect_json_errors (fun _ => (Except.error 0 : Except Nat Unit))
        ("x".data)).1 = true ↔
      ∃ v, (fun _ => (Except.error 0 : Except Nat Unit)) ("x".data) =
        .ok v) ∧
    ((∃ e, (fun _ => (Except.error 0 : Except Nat Unit)) ("x".data) =
        .error e) ∧
     (∃ e, (fun _ => (Except.error 0 : Except Nat Unit))
        (try_repair_json ("x".data)) = .error e)) := by
  refine ⟨c2_no_uncaught_faults.1 _, c2_no_uncaught_faults.2.1 _,
    c2_no_uncaught_faults.2.2.1 _, c2_no_uncaught_faults.2.2.2.1 _ _ _ _, ?_⟩
  apply c2_no_uncaught_faults.2.2.2.2 Unit Nat
    (fun _ => (Except.error 0 : Except Nat Unit)) (fun _ => []) ("x".data)
  rfl

/-! ## C1 groundwork : string-layer lemmas -/

theorem termCh_imp_wsp {c : Char} (h : termCh c = true) : wsp c = true := by
  rw [termCh] at h
  rw [wsp]
  simp only [Bool.or_eq_true, decide_eq_true_eq, Bool.and_eq_true] at h ⊢
  omega

theorem nl_not_mem_of_noTerm {l : Line} (h : noTerm l) : '\n' ∉ l := by
  intro hm
  have := h '\n' hm
  simp [termCh] at this

theorem head?_dropWhile_false {α : Type} {p : α → Bool} {l : List α} {c : α}
    (h : (l.dropWhile p).head? = some c) : p c = false := by
  induction l with
  | nil => simp at h
  | cons a t ih =>
    rw [List.dropWhile_cons] at h
    split at h
    · exact ih h
    · simp only [List.head?_cons, Option.some.injEq] at h
      subst h
      simp_all

theorem pyLstrip_cons_of_not_wsp {c : Char} {r : Line} (h : wsp c = false) :
    pyLstrip (c :: r) = c :: r := by
  rw [pyLstrip, List.dropWhile_cons, if_neg (by simp [h])]

theorem pyLstrip_ws_pre {w x : Line} (h : ∀ c ∈ w, wsp c = true) :
    pyLstrip (w ++ x) = pyLstrip x := by
  rw [pyLstrip, pyLstrip, List.dropWhile_append,
    if_pos (by rw [List.isEmpty_iff, List.dropWhile_eq_nil_iff]; exact h)]

theorem pyRstrip_ws_suffix {w x : Line} (h : ∀ c ∈ w, wsp c = true) :
    pyRstrip (x ++ w) = pyRstrip x := by
  rw [pyRstrip, pyRstrip, List.reverse_append, List.dropWhile_append,
    if_pos (by
      rw [List.isEmpty_iff, List.dropWhile_eq_nil_iff]
      intro c hc
      exact h c (List.mem_reverse.mp hc))]

theorem pyRstrip_idem (l : Line) : pyRstrip (pyRstrip l) = pyRstrip l := by
  rw [pyRstrip, pyRstrip, List.reverse_reverse, List.dropWhile_idempotent]

theorem pyRstrip_append_of_ne {x y : Line} (h : pyRstrip y ≠ []) :
    pyRstrip (x ++ y) = x ++ pyRstrip y := by
  rw [pyRstrip, List.reverse_append, List.dropWhile_append]
  rw [if_neg (by
    rw [List.isEmpty_iff]
    intro hc
    exact h (by rw [pyRstrip, hc]; rfl))]
  rw [List.reverse_append, List.reverse_reverse]
  rfl

theorem pyRstrip_nil_of_all_ws {l : Line} (h : ∀ c ∈ l, wsp c = true) :
    pyRstrip l = [] := by
  rw [pyRstrip, List.dropWhile_eq_nil_iff.mpr
    (fun c hc => h c (List.mem_reverse.mp hc))]
  rfl

theorem pyLstrip_eq_of_head {l : Line} {c : Char} (hh : l.head? = some c)
    (hc : wsp c = false) : pyLstrip l = l := by
  cases l with
  | nil => simp at hh
  | cons a t =>
    simp only [List.head?_cons, Option.some.injEq] at hh
    subst hh
    exact pyLstrip_cons_of_not_wsp hc

theorem pyRstrip_eq_of_last {l : Line} {c : Char} (hh : l.getLast? = some c)
    (hc : wsp c = false) : pyRstrip l = l := by
  have hrev : l.reverse.head? = some c := by
    rw [List.head?_reverse]
    exact hh
  rw [pyRstrip]
  have h1 : l.reverse.dropWhile wsp = l.reverse := by
    cases hl : l.reverse with
    | nil => rfl
    | cons a t =>
      rw [hl] at hrev
      simp only [List.head?_cons, Option.some.injEq] at hrev
      subst hrev
      rw [List.dropWhile_cons, if_neg (by simp [hc])]
  rw [h1, List.reverse_reverse]

theorem pyStrip_head_last {l : Line}
    (hh : ∀ c, l.head? = some c → wsp c = false)
    (hl : ∀ c, l.getLast? = some c → wsp c = false) : pyStrip l = l := by
  cases l with
  | nil => rfl
  | cons a t =>
    have h1 : pyLstrip (a :: t) = a :: t :=
      pyLstrip_eq_of_head rfl (hh a rfl)
    rw [pyStrip, h1]
    cases hg : (a :: t).getLast? with
    | none => simp at hg
    | some c => exact pyRstrip_eq_of_last hg (hl c hg)

theorem rstripped_pyRstrip (l : Line) : rstripped (pyRstrip l) := pyRstrip_idem l

theorem rstripped_pyStrip (l : Line) : rstripped (pyStrip l) := pyRstrip_idem _

theorem rstripped_nil : rstripped ([] : Line) := rfl

theorem getLast?_pyRstrip_false {l : Line} {c : Char}
    (h : (pyRstrip l).getLast? = some c) : wsp c = false := by
  rw [pyRstrip, List.getLast?_reverse] at h
  exact head?_dropWhile_false h

theorem stripped_last_not_ws {t : Line} (hs : pyStrip t = t) {c : Char}
    (hg : t.getLast? = some c) : wsp c = false := by
  rw [← hs] at hg
  exact getLast?_pyRstrip_false hg

theorem pyRstrip_pre (l : Line) : List.IsPrefix (pyRstrip l) l := by
  rw [pyRstrip]
  have h := List.dropWhile_suffix (l := l.reverse) wsp
  have h2 := List.reverse_prefix.mpr h
  simpa using h2

theorem head?_of_pre {p l : Line} (h : List.IsPrefix p l) {c : Char}
    (hc : p.head? = some c) : l.head? = some c := by
  obtain ⟨r, hr⟩ := h
  rw [← hr]
  cases p with
  | nil => simp at hc
  | cons a t => simpa using hc

theorem head?_pyStrip_false {l : Line} {c : Char}
    (h : (pyStrip l).head? = some c) : wsp c = false := by
  rw [pyStrip] at h
  have h2 := head?_of_pre (pyRstrip_pre (pyLstrip l)) h
  exact head?_dropWhile_false h2

theorem stripped_head_not_ws {t : Line} (hs : pyStrip t = t) {c : Char}
    (hg : t.head? = some c) : wsp c = false := by
  rw [← hs] at hg
  exact head?_pyStrip_false hg

theorem mem_pyLstrip {c : Char} {l : Line} (h : c ∈ pyLstrip l) : c ∈ l :=
  (List.dropWhile_sublist wsp).subset h

theorem mem_pyRstrip {c : Char} {l : Line} (h : c ∈ pyRstrip l) : c ∈ l := by
  rw [pyRstrip, List.mem_reverse] at h
  exact List.mem_reverse.mp ((List.dropWhile_sublist wsp).subset h)

theorem mem_pyStrip {c : Char} {l : Line} (h : c ∈ pyStrip l) : c ∈ l :=
  mem_pyLstrip (mem_pyRstrip h)

/-! ## C1 groundwork : join, splitlines and trailing blanks -/

theorem joinNl_nil : joinNl [] = [] := by
  simp [joinNl, List.intercalate]

theorem joinNl_single (l : Line) : joinNl [l] = l := by
  simp [joinNl, List.intercalate]

theorem joinNl_cons2 (l l2 : Line) (t : List Line) :
    joinNl (l :: l2 :: t) = l ++ '\n' :: joinNl (l2 :: t) := by
  simp [joinNl, List.intercalate, List.intersperse]

theorem splitlinesAux_cons (cur : Line) (c : Char) (r : Line) :
    pySplitlinesAux cur (c :: r) =
      if termCh c then
        if c = '\r' ∧ r.head? = some '\n' then
          cur.reverse :: pySplitlinesAux [] r.tail
        else cur.reverse :: pySplitlinesAux [] r
      else pySplitlinesAux (c :: cur) r := by
  rw [pySplitlinesAux]

theorem splitlinesAux_nilR (cur : Line) :
    pySplitlinesAux cur [] = if cur = [] then [] else [cur.reverse] := by
  rw [pySplitlinesAux]

theorem splitlinesAux_accum :
    ∀ (l : Line), noTerm l →
      ∀ (cur r : Line),
        pySplitlinesAux cur (l ++ r) = pySplitlinesAux (l.reverse ++ cur) r := by
  intro l
  induction l with
  | nil => intro _ cur r; simp
  | cons c t ih =>
    intro h cur r
    have hc : termCh c = false := h c (by simp)
    rw [List.cons_append, splitlinesAux_cons, if_neg (by simp [hc])]
    rw [ih (fun x hx => h x (by simp [hx])) (c :: cur) r]
    congr 1
    simp

theorem pySplitlines_join_nl :
    ∀ ls : List Line, (∀ l ∈ ls, noTerm l) → ls ≠ [] →
      pySplitlines (joinNl ls ++ ['\n']) = ls := by
  intro ls
  induction ls with
  | nil => intro _ hne; exact absurd rfl hne
  | cons l t ih =>
    intro h _
    cases t with
    | nil =>
      rw [joinNl_single]
      simp only [pySplitlines]
      rw [splitlinesAux_accum l (h l (by simp)) [] ['\n']]
      rw [splitlinesAux_cons, if_pos (by decide), if_neg (by decide)]
      rw [splitlinesAux_nilR, if_pos rfl]
      simp
    | cons l2 t2 =>
      rw [joinNl_cons2]
      have hshape : (l ++ '\n' :: joinNl (l2 :: t2)) ++ ['\n'] =
          l ++ '\n' :: (joinNl (l2 :: t2) ++ ['\n']) := by
        simp
      simp only [pySplitlines]
      rw [hshape, splitlinesAux_accum l (h l (by simp)) [] _]
      rw [splitlinesAux_cons, if_pos (by decide),
        if_neg (fun hcon => absurd hcon.1 (by decide))]
      have ihr := ih (fun x hx => h x (by simp [hx])) (by simp)
      simp only [pySplitlines] at ihr
      rw [ihr]
      simp

theorem joinNl_ne_nil {L : List Line} (hne : L ≠ [])
    (hlast : L.getLast? ≠ some []) : joinNl L ≠ [] := by
  cases L with
  | nil => exact absurd rfl hne
  | cons l t =>
    cases t with
    | nil =>
      rw [joinNl_single]
      intro hc
      subst hc
      simp at hlast
    | cons l2 t2 =>
      rw [joinNl_cons2]
      simp

theorem dte_nil : dropTrailingEmpty [] = [] := rfl

theorem dte_cons (l : Line) (rest : List Line) :
    dropTrailingEmpty (l :: rest) =
      if dropTrailingEmpty rest = [] then (if l = [] then [] else [l])
      else l :: dropTrailingEmpty rest := by
  rw [dropTrailingEmpty, dropTrailingEmpty, List.reverse_cons,
    List.dropWhile_append]
  by_cases hd : rest.reverse.dropWhile (fun x => x.isEmpty) = []
  · rw [if_pos (by rw [List.isEmpty_iff]; exact hd)]
    rw [if_pos (by rw [hd]; rfl)]
    by_cases hl : l = []
    · subst hl
      rw [List.dropWhile_cons, if_pos (by simp)]
      simp
    · rw [List.dropWhile_cons, if_neg (by simp [List.isEmpty_iff, hl])]
      simp [hl]
  · rw [if_neg (by rw [List.isEmpty_iff]; exact hd)]
    rw [if_neg (by
      intro hc
      exact hd (by simpa using congrArg List.reverse hc))]
    rw [List.reverse_append]
    simp

theorem dte_eq_nil_iff {ls : List Line} :
    dropTrailingEmpty ls = [] ↔ ∀ x ∈ ls, x = [] := by
  rw [dropTrailingEmpty]
  constructor
  · intro h x hx
    have h2 : ls.reverse.dropWhile (fun l => l.isEmpty) = [] := by
      simpa using congrArg List.reverse h
    have h3 := List.dropWhile_eq_nil_iff.mp h2 x (List.mem_reverse.mpr hx)
    simpa [List.isEmpty_iff] using h3
  · intro h
    rw [List.dropWhile_eq_nil_iff.mpr (fun x hx => by
      simp [List.isEmpty_iff, h x (List.mem_reverse.mp hx)])]
    rfl

theorem dte_eq_self {ls : List Line} (h : ls.getLast? ≠ some []) :
    dropTrailingEmpty ls = ls := by
  rw [dropTrailingEmpty]
  have h1 : ls.reverse.dropWhile (fun l => l.isEmpty) = ls.reverse := by
    cases hl : ls.reverse with
    | nil => rfl
    | cons a t =>
      have ha : ls.getLast? = some a := by
        rw [← List.head?_reverse, hl]
        rfl
      rw [List.dropWhile_cons, if_neg]
      intro hcon
      have ha2 : a = [] := List.isEmpty_iff.mp hcon
      exact h (ha2 ▸ ha)
  rw [h1, List.reverse_reverse]

theorem dte_getLast {ls : List Line} ( _h : dropTrailingEmpty ls ≠ []) :
    (dropTrailingEmpty ls).getLast? ≠ some [] := by
  rw [dropTrailingEmpty, List.getLast?_reverse]
  intro hcon
  have h2 := head?_dropWhile_false hcon
  simp at h2

theorem dte_pre (ls : List Line) :
    List.IsPrefix (dropTrailingEmpty ls) ls := by
  rw [dropTrailingEmpty]
  have h : (ls.reverse.dropWhile (fun l => l.isEmpty)) <:+ ls.reverse :=
    List.dropWhile_suffix _
  have h2 := List.reverse_prefix.mpr h
  simpa using h2

theorem joinNl_all_empty {ls : List Line} (h : ∀ l ∈ ls, l = []) :
    ∀ c ∈ joinNl ls, c = '\n' := by
  induction ls with
  | nil => simp [joinNl_nil]
  | cons l t ih =>
    cases t with
    | nil =>
      rw [joinNl_single, h l (by simp)]
      simp
    | cons l2 t2 =>
      rw [joinNl_cons2, h l (by simp)]
      intro c hc
      simp only [List.nil_append, List.mem_cons] at hc
      rcases hc with hc | hc
      · exact hc
      · exact ih (fun x hx => h x (by simp [hx])) c hc

theorem pyRstrip_joinNl :
    ∀ L : List Line, (∀ l ∈ L, rstripped l) →
      pyRstrip (joinNl L) = joinNl (dropTrailingEmpty L) := by
  intro L
  induction L with
  | nil =>
    intro _
    rw [joinNl_nil, dte_nil, joinNl_nil]
    rfl
  | cons l rest ih =>
    intro h
    have hl : rstripped l := h l (by simp)
    rw [dte_cons]
    cases rest with
    | nil =>
      rw [dte_nil, if_pos rfl, joinNl_single]
      by_cases hle : l = []
      · rw [if_pos hle, joinNl_nil, hle]
        rfl
      · rw [if_neg hle, joinNl_single]
        exact hl
    | cons l2 t2 =>
      by_cases hd : dropTrailingEmpty (l2 :: t2) = []
      · rw [if_pos hd]
        have hall : ∀ x ∈ l2 :: t2, x = [] := dte_eq_nil_iff.mp hd
        have hws : ∀ c ∈ '\n' :: joinNl (l2 :: t2), wsp c = true := by
          intro c hc
          rcases List.mem_cons.mp hc with hc | hc
          · subst hc; decide
          · rw [joinNl_all_empty hall c hc]; decide
        rw [joinNl_cons2, show l ++ '\n' :: joinNl (l2 :: t2)
            = l ++ ('\n' :: joinNl (l2 :: t2)) from rfl,
          pyRstrip_ws_suffix hws, hl]
        by_cases hle : l = []
        · rw [if_pos hle, joinNl_nil, hle]
        · rw [if_neg hle, joinNl_single]
      · rw [if_neg hd]
        have ihr : pyRstrip (joinNl (l2 :: t2)) =
            joinNl (dropTrailingEmpty (l2 :: t2)) :=
          ih (fun x hx => h x (by simp [hx]))
        have hne : pyRstrip (joinNl (l2 :: t2)) ≠ [] := by
          rw [ihr]
          exact joinNl_ne_nil hd (dte_getLast hd)
        rw [joinNl_cons2, show l ++ '\n' :: joinNl (l2 :: t2)
            = (l ++ ['\n']) ++ joinNl (l2 :: t2) from by simp,
          pyRstrip_append_of_ne hne, ihr]
        cases hdte : dropTrailingEmpty (l2 :: t2) with
        | nil => exact absurd hdte hd
        | cons a t =>
          rw [joinNl_cons2]
          simp

/-! ## C1 groundwork : infix splitting -/

theorem infix_split {α : Type} {t x y : List α} {g : α} (hg : g ∉ t)
    (h : t <:+: x ++ g :: y) : t <:+: x ∨ t <:+: y := by
  obtain ⟨s, u, he⟩ := h
  by_cases hA : s.length + t.length ≤ x.length
  · left
    have h3 := congrArg (List.take (s.length + t.length)) he
    rw [List.take_append_of_le_length hA] at h3
    have hn : s.length + t.length = (s ++ t).length := by simp
    rw [hn, List.take_left] at h3
    have h4 : (s ++ t) <:+: x := by
      rw [h3]
      exact (List.take_prefix _ _).isInfix
    exact List.IsInfix.trans ⟨s, [], by simp⟩ h4
  · by_cases hB : x.length + 1 ≤ s.length
    · right
      rw [List.append_assoc] at he
      have h3 := congrArg (List.drop (x.length + 1)) he
      rw [List.drop_append_of_le_length hB] at h3
      have h4 : (x ++ g :: y).drop (x.length + 1) = y := by
        rw [show x ++ g :: y = (x ++ [g]) ++ y from by simp]
        exact List.drop_left' (by simp)
      rw [h4] at h3
      exact ⟨s.drop (x.length + 1), u, by rw [← h3]; simp⟩
    · exfalso
      have h1 : (x ++ g :: y)[x.length]? = some g := by
        rw [List.getElem?_append, if_neg (by omega)]
        simp
      rw [← he] at h1
      rw [List.getElem?_append, if_pos (by simp; omega)] at h1
      rw [List.getElem?_append, if_neg (by omega)] at h1
      exact hg (List.getElem?_mem h1)

theorem infix_of_infix_cons {α : Type} {t x : List α} {c : α} (hc : c ∉ t)
    (h : t <:+: c :: x) : t <:+: x := by
  rcases infix_split (x := ([] : List α)) hc (by simpa using h) with h1 | h1
  · rw [List.infix_nil.mp h1]
    exact List.nil_infix
  · exact h1

theorem infix_avoid_right {α : Type} {t : List α} (hne : t ≠ []) :
    ∀ (y x : List α), (∀ c ∈ y, c ∉ t) → t <:+: x ++ y → t <:+: x := by
  intro y
  induction y using List.reverseRecOn with
  | nil => intro x _ h; simpa using h
  | append_singleton y2 c ih =>
    intro x hdisj h
    rw [show x ++ (y2 ++ [c]) = (x ++ y2) ++ c :: [] from by simp] at h
    rcases infix_split (hdisj c (by simp)) h with h1 | h1
    · exact ih x (fun d hd => hdisj d (by simp [hd])) h1
    · rw [List.infix_nil.mp h1] at hne
      exact absurd rfl hne

theorem intercalate_cons2 {α : Type} (sep p q : List α) (ps : List (List α)) :
    List.intercalate sep (p :: q :: ps) =
      p ++ sep ++ List.intercalate sep (q :: ps) := by
  simp [List.intercalate, List.intersperse]

theorem infix_glue_piece {t : Line} (hne : t ≠ []) (hsp : ' ' ∉ t)
    (hpi : '|' ∉ t) :
    ∀ pieces : List Line, t <:+: List.intercalate [' ', '|', ' '] pieces →
      ∃ p ∈ pieces, t <:+: p := by
  intro pieces
  induction pieces with
  | nil =>
    intro h
    rw [show List.intercalate [' ', '|', ' '] ([] : List Line) = [] from by
      simp [List.intercalate]] at h
    exact absurd (List.infix_nil.mp h) hne
  | cons p ps ih =>
    intro h
    cases ps with
    | nil =>
      refine ⟨p, by simp, ?_⟩
      simpa [List.intercalate] using h
    | cons q ps2 =>
      rw [intercalate_cons2] at h
      rw [show p ++ [' ', '|', ' '] ++ List.intercalate [' ', '|', ' '] (q :: ps2)
          = p ++ ' ' :: ('|' :: ' ' :: List.intercalate [' ', '|', ' '] (q :: ps2))
          from by simp] at h
      rcases infix_split hsp h with h1 | h1
      · exact ⟨p, by simp, h1⟩
      · have h2 := infix_of_infix_cons hpi h1
        have h3 := infix_of_infix_cons hsp h2
        obtain ⟨r, hr, hr2⟩ := ih h3
        exact ⟨r, by simp [hr], hr2⟩

theorem infix_barJoin {t : Line} (hne : t ≠ []) (hsp : ' ' ∉ t)
    (hpi : '|' ∉ t) {pieces : List Line} (h : t <:+: barJoin pieces) :
    ∃ p ∈ pieces, t <:+: p := by
  rw [barJoin] at h
  have h1 := infix_of_infix_cons hpi h
  have h2 := infix_of_infix_cons hsp h1
  have h3 : t <:+: List.intercalate [' ', '|', ' '] pieces :=
    infix_avoid_right hne [' ', '|'] _ (by
      intro c hc
      simp only [List.mem_cons, List.not_mem_nil, or_false] at hc
      rcases hc with rfl | rfl
      exacts [hsp, hpi]) h2
  exact infix_glue_piece hne hsp hpi pieces h3

theorem mem_infix_intercalate (sep : Line) {p : Line} :
    ∀ pieces : List Line, p ∈ pieces →
      p <:+: List.intercalate sep pieces := by
  intro pieces
  induction pieces with
  | nil => intro h; simp at h
  | cons q ps ih =>
    intro h
    cases ps with
    | nil =>
      simp only [List.mem_cons, List.not_mem_nil, or_false] at h
      subst h
      simp [List.intercalate]
    | cons r ps2 =>
      rw [intercalate_cons2]
      rcases List.mem_cons.mp h with rfl | h2
      · have h4 : p <:+: p ++ (sep ++ List.intercalate sep (r :: ps2)) :=
          (List.prefix_append _ _).isInfix
        simpa using h4
      · exact (ih h2).trans ⟨q ++ sep, [], by simp⟩

/-! ## C1 groundwork : splitPipe structure and the split or format roundtrip -/

theorem splitPipe_cons_pipe (r : Line) :
    splitPipe ('|' :: r) = [] :: splitPipe r := by
  rw [splitPipe]
  simp

theorem splitPipe_cons_ne {c : Char} (hc : c ≠ '|') (r : Line) :
    splitPipe (c :: r) =
      (c :: (splitPipe r).headD []) :: (splitPipe r).tail := by
  rw [splitPipe]
  simp [hc]

theorem splitPipe_ne_nil (l : Line) : splitPipe l ≠ [] := by
  cases l with
  | nil => simp [splitPipe]
  | cons c r =>
    by_cases hc : c = '|'
    · subst hc; rw [splitPipe_cons_pipe]; simp
    · rw [splitPipe_cons_ne hc]; simp

theorem splitPipe_headD :
    ∀ l : Line, (splitPipe l).headD [] = l.takeWhile (fun c => !(c == '|')) := by
  intro l
  induction l with
  | nil => rfl
  | cons c r ih =>
    by_cases hc : c = '|'
    · subst hc
      rw [splitPipe_cons_pipe]
      simp [List.takeWhile_cons]
    · rw [splitPipe_cons_ne hc, List.takeWhile_cons, if_pos (by simp [hc])]
      rw [List.headD_cons, ih]

theorem mem_splitPipe_no_pipe :
    ∀ l : Line, ∀ p ∈ splitPipe l, '|' ∉ p := by
  intro l
  induction l with
  | nil =>
    intro p hp
    simp only [splitPipe, List.mem_cons, List.not_mem_nil, or_false] at hp
    subst hp
    simp
  | cons c r ih =>
    intro p hp
    by_cases hc : c = '|'
    · subst hc
      rw [splitPipe_cons_pipe] at hp
      rcases List.mem_cons.mp hp with rfl | h2
      · simp
      · exact ih p h2
    · rw [splitPipe_cons_ne hc] at hp
      rcases List.mem_cons.mp hp with rfl | h2
      · intro hmem
        rcases List.mem_cons.mp hmem with h3 | h3
        · exact hc h3.symm
        · cases hsp : splitPipe r with
          | nil => rw [hsp] at h3; simp at h3
          | cons a t =>
            rw [hsp] at h3
            simp only [List.headD_cons] at h3
            exact ih a (by rw [hsp]; simp) h3
      · exact ih p (List.mem_of_mem_tail h2)

theorem mem_splitPipe_inf :
    ∀ l : Line, ∀ p ∈ splitPipe l, p <:+: l := by
  intro l
  induction l with
  | nil =>
    intro p hp
    simp only [splitPipe, List.mem_cons, List.not_mem_nil, or_false] at hp
    subst hp
    exact List.infix_refl _
  | cons c r ih =>
    intro p hp
    by_cases hc : c = '|'
    · subst hc
      rw [splitPipe_cons_pipe] at hp
      rcases List.mem_cons.mp hp with rfl | h2
      · exact List.nil_infix
      · exact List.infix_cons (ih p h2)
    · rw [splitPipe_cons_ne hc] at hp
      rcases List.mem_cons.mp hp with rfl | h2
      · rw [splitPipe_headD]
        refine ⟨[], r.dropWhile (fun d => !(d == '|')), ?_⟩
        simp [List.takeWhile_append_dropWhile]
      · exact List.infix_cons (ih p (List.mem_of_mem_tail h2))

theorem splitPipe_no_pipe {a : Line} (ha : '|' ∉ a) : splitPipe a = [a] := by
  induction a with
  | nil => rfl
  | cons c r ih =>
    have hc : c ≠ '|' := fun h => ha (by simp [h])
    rw [splitPipe_cons_ne hc, ih (fun h => ha (by simp [h]))]
    rfl

theorem splitPipe_append_pipe {a : Line} (ha : '|' ∉ a) (b : Line) :
    splitPipe (a ++ '|' :: b) = a :: splitPipe b := by
  induction a with
  | nil => exact splitPipe_cons_pipe b
  | cons c r ih =>
    have hc : c ≠ '|' := fun h => ha (by simp [h])
    rw [List.cons_append, splitPipe_cons_ne hc,
      ih (fun h => ha (by simp [h]))]
    rfl

theorem splitPipe_glue :
    ∀ pieces : List Line, pieces ≠ [] → (∀ p ∈ pieces, '|' ∉ p) →
      splitPipe (' ' :: List.intercalate [' ', '|', ' '] pieces ++ [' ']) =
        pieces.map (fun p => ' ' :: p ++ [' ']) := by
  intro pieces
  induction pieces with
  | nil => intro h _; exact absurd rfl h
  | cons p ps ih =>
    intro _ hfree
    cases ps with
    | nil =>
      rw [show List.intercalate [' ', '|', ' '] [p] = p from by
        simp [List.intercalate]]
      rw [splitPipe_no_pipe (by
        intro hm
        rcases List.mem_cons.mp hm with h1 | h1
        · exact absurd h1 (by decide)
        · rcases List.mem_append.mp h1 with h2 | h2
          · exact hfree p (by simp) h2
          · simp at h2)]
      rfl
    | cons q ps2 =>
      rw [intercalate_cons2]
      rw [show ' ' :: (p ++ [' ', '|', ' ']
            ++ List.intercalate [' ', '|', ' '] (q :: ps2)) ++ [' ']
          = (' ' :: p ++ [' ']) ++ '|'
            :: (' ' :: List.intercalate [' ', '|', ' '] (q :: ps2) ++ [' '])
          from by simp]
      rw [splitPipe_append_pipe (by
        intro hm
        rcases List.mem_cons.mp hm with h1 | h1
        · exact absurd h1 (by decide)
        · rcases List.mem_append.mp h1 with h2 | h2
          · exact hfree p (by simp) h2
          · simp at h2)]
      rw [ih (by simp) (fun r hr => hfree r (by simp [hr]))]
      rfl

theorem pyStrip_idem (l : Line) : pyStrip (pyStrip l) = pyStrip l := by
  apply pyStrip_head_last
  · intro c hc
    exact head?_pyStrip_false hc
  · intro c hc
    rw [pyStrip] at hc
    exact getLast?_pyRstrip_false hc

theorem pyLstrip_append_of_ne {x y : Line} (h : pyLstrip x ≠ []) :
    pyLstrip (x ++ y) = pyLstrip x ++ y := by
  rw [pyLstrip, pyLstrip, List.dropWhile_append]
  rw [if_neg (by rw [List.isEmpty_iff]; exact fun hc => h hc)]

theorem pyStrip_pad (w1 t w2 : Line) (h1 : ∀ a ∈ w1, wsp a = true)
    (h2 : ∀ a ∈ w2, wsp a = true) :
    pyStrip (w1 ++ t ++ w2) = pyStrip t := by
  rw [pyStrip, pyStrip]
  rw [show w1 ++ t ++ w2 = w1 ++ (t ++ w2) from by simp]
  rw [pyLstrip_ws_pre h1]
  by_cases ht : pyLstrip t = []
  · have hall : ∀ a ∈ t, wsp a = true := by
      intro a ha
      by_contra hna
      have hmem := mem_pyLstrip_of_not_wsp (by simpa using hna) ha
      rw [ht] at hmem
      simp at hmem
    have hall2 : pyLstrip (t ++ w2) = [] := by
      rw [pyLstrip, List.dropWhile_eq_nil_iff]
      intro a ha
      rcases List.mem_append.mp ha with h | h
      · simpa using hall a h
      · simpa using h2 a h
    rw [hall2, ht]
  · rw [pyLstrip_append_of_ne ht, pyRstrip_ws_suffix h2]

theorem pyLstrip_inf (l : Line) : pyLstrip l <:+: l :=
  (List.dropWhile_suffix wsp).isInfix

theorem pyStrip_inf (l : Line) : pyStrip l <:+: l :=
  ((pyRstrip_pre (pyLstrip l)).isInfix).trans (pyLstrip_inf l)

theorem stripPipes_inf (l : Line) : stripPipes l <:+: l := by
  rw [stripPipes]
  have h1 : ((l.dropWhile (· == '|')).reverse.dropWhile (· == '|')).reverse
      <+: l.dropWhile (· == '|') := by
    have h := List.dropWhile_suffix
      (l := (l.dropWhile (· == '|')).reverse) (· == '|')
    have h2 := List.reverse_prefix.mpr h
    simpa using h2
  exact h1.isInfix.trans (List.dropWhile_suffix _).isInfix

theorem split_row_ne_nil (r : Line) : split_row r ≠ [] := by
  rw [split_row]
  intro h
  exact splitPipe_ne_nil _ (List.map_eq_nil_iff.mp h)

theorem mem_split_row_stripped {r p : Line} (h : p ∈ split_row r) :
    pyStrip p = p := by
  rw [split_row] at h
  obtain ⟨q, _, rfl⟩ := List.mem_map.mp h
  exact pyStrip_idem q

theorem mem_split_row_no_pipe {r p : Line} (h : p ∈ split_row r) :
    '|' ∉ p := by
  rw [split_row] at h
  obtain ⟨q, hq, rfl⟩ := List.mem_map.mp h
  intro hm
  exact mem_splitPipe_no_pipe _ q hq (mem_pyStrip hm)

theorem mem_split_row_inf {r p : Line} (h : p ∈ split_row r) :
    p <:+: r := by
  rw [split_row] at h
  obtain ⟨q, hq, rfl⟩ := List.mem_map.mp h
  exact ((pyStrip_inf q).trans (mem_splitPipe_inf _ q hq)).trans
    ((stripPipes_inf (pyStrip r)).trans (pyStrip_inf r))

theorem mem_split_row_subset {r p : Line} (h : p ∈ split_row r) {c : Char}
    (hc : c ∈ p) : c ∈ r := (mem_split_row_inf h).subset hc

theorem pyStrip_barJoin (pieces : List Line) :
    pyStrip (barJoin pieces) = barJoin pieces := by
  apply pyStrip_head_last
  · intro c hc
    rw [barJoin] at hc
    simp only [List.cons_append, List.head?_cons, Option.some.injEq] at hc
    subst hc
    decide
  · intro c hc
    rw [barJoin] at hc
    rw [show '|' :: ' ' :: List.intercalate [' ', '|', ' '] pieces ++ [' ', '|']
        = ('|' :: ' ' :: List.intercalate [' ', '|', ' '] pieces ++ [' ']) ++ ['|']
        from by simp] at hc
    rw [List.getLast?_concat] at hc
    simp only [Option.some.injEq] at hc
    subst hc
    decide

theorem split_row_barJoin {pieces : List Line} (hne : pieces ≠ [])
    (hfree : ∀ p ∈ pieces, '|' ∉ p) :
    split_row (barJoin pieces) = pieces.map pyStrip := by
  have hstrip : pyStrip (barJoin pieces) = barJoin pieces := pyStrip_barJoin pieces
  have hsp : stripPipes (barJoin pieces) =
      ' ' :: List.intercalate [' ', '|', ' '] pieces ++ [' '] := by
    rw [barJoin, stripPipes]
    rw [show '|' :: ' ' :: List.intercalate [' ', '|', ' '] pieces ++ [' ', '|']
        = '|' :: (' ' :: (List.intercalate [' ', '|', ' '] pieces ++ [' ', '|']))
        from by simp]
    rw [List.dropWhile_cons, if_pos (by decide),
      List.dropWhile_cons, if_neg (by decide)]
    rw [show (' ' :: (List.intercalate [' ', '|', ' '] pieces ++ [' ', '|'])).reverse
        = '|' :: (' ' :: ((List.intercalate [' ', '|', ' '] pieces).reverse ++ [' ']))
        from by simp]
    rw [List.dropWhile_cons, if_pos (by decide),
      List.dropWhile_cons, if_neg (by decide)]
    simp
  rw [split_row, hstrip, hsp, splitPipe_glue pieces hne hfree, List.map_map]
  apply List.map_congr_left
  intro p _
  show pyStrip (' ' :: p ++ [' ']) = pyStrip p
  rw [show (' ' :: p ++ [' ']) = [' '] ++ p ++ [' '] from by simp]
  exact pyStrip_pad [' '] p [' '] (by decide) (by decide)

theorem mem_zipWith_ljust :
    ∀ (cells : List Line) (ws : List Nat) (p : Line),
      p ∈ List.zipWith ljust cells ws →
      ∃ c ∈ cells, ∃ w, p = ljust c w := by
  intro cells
  induction cells with
  | nil => intro ws p h; simp at h
  | cons c cs ih =>
    intro ws p h
    cases ws with
    | nil => simp at h
    | cons w ws2 =>
      rw [List.zipWith_cons_cons] at h
      rcases List.mem_cons.mp h with rfl | h2
      · exact ⟨c, by simp, w, rfl⟩
      · obtain ⟨d, hd, w2, hw2⟩ := ih ws2 p h2
        exact ⟨d, by simp [hd], w2, hw2⟩

theorem map_pyStrip_ljust :
    ∀ (cells : List Line) (ws : List Nat), cells.length = ws.length →
      (∀ c ∈ cells, pyStrip c = c) →
      (List.zipWith ljust cells ws).map pyStrip = cells := by
  intro cells
  induction cells with
  | nil => intro ws _ _; simp
  | cons c cs ih =>
    intro ws hlen hstr
    cases ws with
    | nil => simp at hlen
    | cons w ws2 =>
      rw [List.zipWith_cons_cons, List.map_cons,
        ih ws2 (by simpa using hlen) (fun d hd => hstr d (by simp [hd]))]
      congr 1
      rw [ljust]
      rw [show c ++ List.replicate (w - c.length) ' '
          = [] ++ c ++ List.replicate (w - c.length) ' ' from by simp]
      rw [pyStrip_pad [] c _ (by simp) (by
        intro a ha
        rw [List.eq_of_mem_replicate ha]
        decide)]
      exact hstr c (by simp)

theorem split_row_fmtRow {cells : List Line} {ws : List Nat}
    (hne : cells ≠ []) (hlen : cells.length = ws.length)
    (hs : ∀ c ∈ cells, pyStrip c = c)
    (hfree : ∀ c ∈ cells, '|' ∉ c) :
    split_row (fmtRowLine ws cells) = cells := by
  rw [fmtRowLine]
  rw [split_row_barJoin (by
      cases cells with
      | nil => exact absurd rfl hne
      | cons c cs =>
        cases ws with
        | nil => simp at hlen
        | cons w ws2 => simp)
    (by
      intro p hp
      obtain ⟨c, hc, w, rfl⟩ := mem_zipWith_ljust cells ws p hp
      rw [ljust]
      intro hm
      rcases List.mem_append.mp hm with h2 | h2
      · exact hfree c hc h2
      · have := List.eq_of_mem_replicate h2
        simp at this)]
  exact map_pyStrip_ljust cells ws hlen hs

theorem pyStrip_replicate_dash {n : Nat} (hn : 1 ≤ n) :
    pyStrip (List.replicate n '-') = List.replicate n '-' := by
  apply pyStrip_head_last
  · intro c hc
    cases n with
    | zero => omega
    | succ m =>
      rw [List.replicate_succ] at hc
      simp only [List.head?_cons, Option.some.injEq] at hc
      subst hc
      decide
  · intro c hc
    cases n with
    | zero => omega
    | succ m =>
      rw [List.replicate_succ'] at hc
      rw [List.getLast?_concat] at hc
      simp only [Option.some.injEq] at hc
      subst hc
      decide

theorem split_row_sepRow {ws : List Nat} (hne : ws ≠ []) :
    split_row (sepRowLine ws) =
      ws.map (fun w => List.replicate (max 3 w) '-') := by
  rw [sepRowLine]
  rw [split_row_barJoin (by simpa using hne)
    (by
      intro p hp
      obtain ⟨w, hw, rfl⟩ := List.mem_map.mp hp
      intro hm
      have h2 := List.eq_of_mem_replicate hm
      simp at h2),
    List.map_map]
  apply List.map_congr_left
  intro w _
  show pyStrip (List.replicate (max 3 w) '-') = List.replicate (max 3 w) '-'
  exact pyStrip_replicate_dash (by omega)

theorem isAlignMarker_replicate {n : Nat} (hn : 3 ≤ n) :
    isAlignMarker (List.replicate n '-') = true := by
  have hhead : (List.replicate n '-').headD ' ' = '-' := by
    cases n with
    | zero => omega
    | succ m => rw [List.replicate_succ]; rfl
  rw [isAlignMarker]
  rw [if_neg (by rw [hhead]; decide)]
  rw [List.takeWhile_eq_self_iff.mpr (by
    intro x hx
    rw [List.eq_of_mem_replicate hx]
    decide)]
  rw [List.dropWhile_eq_nil_iff.mpr (by
    intro x hx
    rw [List.eq_of_mem_replicate hx]
    decide)]
  simp [hn]

/-! ## C1 groundwork : splitlines of joined lines, rendered rows -/

theorem pySplitlines_join :
    ∀ ls : List Line, (∀ l ∈ ls, noTerm l) → (∀ l ∈ ls, l ≠ []) → ls ≠ [] →
      pySplitlines (joinNl ls) = ls := by
  intro ls
  induction ls with
  | nil => intro _ _ hne; exact absurd rfl hne
  | cons l t ih =>
    intro h hn _
    cases t with
    | nil =>
      rw [joinNl_single]
      simp only [pySplitlines]
      have hacc := splitlinesAux_accum l (h l (by simp)) [] []
      rw [List.append_nil] at hacc
      rw [hacc, splitlinesAux_nilR,
        if_neg (by simpa using hn l (by simp))]
      simp
    | cons l2 t2 =>
      rw [joinNl_cons2]
      simp only [pySplitlines]
      rw [show l ++ '\n' :: joinNl (l2 :: t2)
          = l ++ ('\n' :: joinNl (l2 :: t2)) from rfl]
      rw [splitlinesAux_accum l (h l (by simp)) [] _]
      rw [splitlinesAux_cons, if_pos (by decide),
        if_neg (fun hcon => absurd hcon.1 (by decide))]
      have ihr := ih (fun x hx => h x (by simp [hx]))
        (fun x hx => hn x (by simp [hx])) (by simp)
      simp only [pySplitlines] at ihr
      rw [ihr]
      simp

theorem splitlinesAux_noTerm :
    ∀ (cur cs : Line), (∀ c ∈ cur, termCh c = false) →
      ∀ l ∈ pySplitlinesAux cur cs, noTerm l := by
  intro cur cs
  induction cur, cs using pySplitlinesAux.induct with
  | case1 =>
    intro _ l hl
    rw [splitlinesAux_nilR, if_pos rfl] at hl
    simp at hl
  | case2 cur hc =>
    intro hcur l hl
    rw [splitlinesAux_nilR, if_neg hc] at hl
    simp only [List.mem_cons, List.not_mem_nil, or_false] at hl
    subst hl
    intro d hd
    exact hcur d (List.mem_reverse.mp hd)
  | case3 cur c r h1 h2 ih =>
    intro hcur l hl
    rw [splitlinesAux_cons, if_pos h1, if_pos h2] at hl
    rcases List.mem_cons.mp hl with rfl | h3
    · intro d hd
      exact hcur d (List.mem_reverse.mp hd)
    · exact ih (by simp) l h3
  | case4 cur c r h1 h2 ih =>
    intro hcur l hl
    rw [splitlinesAux_cons, if_pos h1, if_neg h2] at hl
    rcases List.mem_cons.mp hl with rfl | h3
    · intro d hd
      exact hcur d (List.mem_reverse.mp hd)
    · exact ih (by simp) l h3
  | case5 cur c r h1 ih =>
    intro hcur l hl
    rw [splitlinesAux_cons, if_neg h1] at hl
    refine ih ?_ l hl
    intro d hd
    rcases List.mem_cons.mp hd with rfl | h4
    · simpa using h1
    · exact hcur d h4

theorem mem_pySplitlines_noTerm {cs : Line} :
    ∀ l ∈ pySplitlines cs, noTerm l := by
  intro l hl
  exact splitlinesAux_noTerm [] cs (by simp) l hl

theorem barJoin_ne_nil (ps : List Line) : barJoin ps ≠ [] := by
  rw [barJoin]
  simp

theorem barJoin_head (ps : List Line) : (barJoin ps).head? = some '|' := rfl

theorem hasPipe_barJoin (ps : List Line) : hasPipe (barJoin ps) = true := by
  rw [hasPipe, decide_eq_true_eq, barJoin]
  simp

theorem barJoin_getLast (ps : List Line) : (barJoin ps).getLast? = some '|' := by
  rw [barJoin]
  rw [show '|' :: ' ' :: List.intercalate [' ', '|', ' '] ps ++ [' ', '|']
      = ('|' :: ' ' :: List.intercalate [' ', '|', ' '] ps ++ [' ']) ++ ['|']
      from by simp]
  exact List.getLast?_concat _

theorem rstripped_barJoin (ps : List Line) : rstripped (barJoin ps) :=
  pyRstrip_eq_of_last (barJoin_getLast ps) (by decide)

theorem mem_intercalate_glue {c : Char} :
    ∀ ps : List Line, c ∈ List.intercalate [' ', '|', ' '] ps →
      c = '|' ∨ c = ' ' ∨ ∃ p ∈ ps, c ∈ p := by
  intro ps
  induction ps with
  | nil =>
    intro h
    rw [show List.intercalate [' ', '|', ' '] ([] : List Line) = [] from by
      simp [List.intercalate]] at h
    simp at h
  | cons p ps2 ih =>
    intro h
    cases ps2 with
    | nil =>
      rw [show List.intercalate [' ', '|', ' '] [p] = p from by
        simp [List.intercalate]] at h
      exact Or.inr (Or.inr ⟨p, by simp, h⟩)
    | cons q ps3 =>
      rw [intercalate_cons2] at h
      rcases List.mem_append.mp h with h1 | h1
      · rcases List.mem_append.mp h1 with h2 | h2
        · exact Or.inr (Or.inr ⟨p, by simp, h2⟩)
        · simp only [List.mem_cons, List.not_mem_nil, or_false] at h2
          rcases h2 with rfl | rfl | rfl
          · exact Or.inr (Or.inl rfl)
          · exact Or.inl rfl
          · exact Or.inr (Or.inl rfl)
      · rcases ih h1 with h2 | h2 | ⟨d, hd, hcd⟩
        · exact Or.inl h2
        · exact Or.inr (Or.inl h2)
        · exact Or.inr (Or.inr ⟨d, by simp [hd], hcd⟩)

theorem mem_barJoin {c : Char} {ps : List Line} (h : c ∈ barJoin ps) :
    c = '|' ∨ c = ' ' ∨ ∃ p ∈ ps, c ∈ p := by
  rw [barJoin] at h
  simp only [List.cons_append] at h
  rcases List.mem_cons.mp h with rfl | h1
  · exact Or.inl rfl
  · rcases List.mem_cons.mp h1 with rfl | h2
    · exact Or.inr (Or.inl rfl)
    · rcases List.mem_append.mp h2 with h3 | h3
      · exact mem_intercalate_glue ps h3
      · simp only [List.mem_cons, List.not_mem_nil, or_false] at h3
        rcases h3 with rfl | rfl
        · exact Or.inr (Or.inl rfl)
        · exact Or.inl rfl

theorem noTerm_barJoin {ps : List Line} (h : ∀ p ∈ ps, noTerm p) :
    noTerm (barJoin ps) := by
  intro c hc
  rcases mem_barJoin hc with rfl | rfl | ⟨p, hp, hcp⟩
  · decide
  · decide
  · exact h p hp c hcp

theorem noTerm_fmtRowLine {cells : List Line} {ws : List Nat}
    (h : ∀ cell ∈ cells, noTerm cell) : noTerm (fmtRowLine ws cells) := by
  rw [fmtRowLine]
  apply noTerm_barJoin
  intro p hp
  obtain ⟨cell, hcell, w, rfl⟩ := mem_zipWith_ljust cells ws p hp
  intro c hc
  rw [ljust] at hc
  rcases List.mem_append.mp hc with h1 | h1
  · exact h cell hcell c h1
  · rw [List.eq_of_mem_replicate h1]
    decide

theorem noTerm_sepRowLine (ws : List Nat) : noTerm (sepRowLine ws) := by
  rw [sepRowLine]
  apply noTerm_barJoin
  intro p hp
  obtain ⟨w, _, rfl⟩ := List.mem_map.mp hp
  intro c hc
  rw [List.eq_of_mem_replicate hc]
  decide

theorem mem_infix_barJoin {p : Line} {ps : List Line} (h : p ∈ ps) :
    p <:+: barJoin ps := by
  have h1 := mem_infix_intercalate [' ', '|', ' '] ps h
  rw [barJoin]
  exact h1.trans ⟨['|', ' '], [' ', '|'], by simp⟩

theorem dash3_sepRowLine {ws : List Nat} (hne : ws ≠ []) :
    dash3 (sepRowLine ws) = true := by
  rw [dash3, decide_eq_true_eq]
  cases ws with
  | nil => exact absurd rfl hne
  | cons w ws2 =>
    have hmem : List.replicate (max 3 w) '-' ∈
        (w :: ws2).map (fun v => List.replicate (max 3 v) '-') := by simp
    have h1 : ['-', '-', '-'] <:+: List.replicate (max 3 w) '-' := by
      have h2 : List.replicate (max 3 w) '-'
          = ['-', '-', '-'] ++ List.replicate (max 3 w - 3) '-' := by
        rw [show ['-', '-', '-'] = List.replicate 3 '-' from rfl,
          ← List.replicate_add]
        congr 1
        omega
      rw [h2]
      exact (List.prefix_append _ _).isInfix
    refine h1.trans ?_
    rw [sepRowLine]
    exact mem_infix_barJoin hmem

theorem dash3_fmtRow_transfer {r : Line} {ws : List Nat}
    (h : dash3 (fmtRowLine ws (split_row r)) = true) : dash3 r = true := by
  rw [dash3, decide_eq_true_eq] at h ⊢
  rw [fmtRowLine] at h
  obtain ⟨p, hp, hinf⟩ := infix_barJoin (by decide) (by decide) (by decide) h
  obtain ⟨cell, hcell, w, rfl⟩ := mem_zipWith_ljust _ _ p hp
  rw [ljust] at hinf
  have h2 : ['-', '-', '-'] <:+: cell :=
    infix_avoid_right (by decide) _ cell (by
      intro d hd
      rw [List.eq_of_mem_replicate hd]
      decide) hinf
  exact h2.trans (mem_split_row_inf hcell)

theorem format_table_some_eq {rows : List (List Line)} {f : Line}
    (hfmt : format_table rows = some f) :
    rows = [] ∧ f = [] ∨
    ∃ h t ws, rows = h :: t ∧ computeWidths h.length (h :: t) = some ws ∧
      f = joinNl (fmtRowLine ws h :: sepRowLine ws :: t.map (fmtRowLine ws)) := by
  cases rows with
  | nil =>
    left
    refine ⟨rfl, ?_⟩
    simp only [format_table] at hfmt
    simpa using hfmt.symm
  | cons h t =>
    right
    simp only [format_table] at hfmt
    obtain ⟨ws, h1, h2⟩ := Option.map_eq_some'.mp hfmt
    exact ⟨h, t, ws, rfl, h1, h2.symm⟩

theorem computeWidths_length {ncols : Nat} {rows : List (List Line)}
    {ws : List Nat} (hall : ∀ r ∈ rows, r.length ≤ ncols)
    (h : computeWidths ncols rows = some ws) : ws.length = ncols := by
  obtain ⟨ws2, h1, h2, _⟩ := foldl_widths rows (List.replicate ncols 0)
    (fun r hr => by simpa using hall r hr)
  rw [computeWidths, h1] at h
  cases h
  simpa using h2

/-! ## C1 groundwork : second-pass block gluing -/

theorem blockPred_eq_hasPipe (l : Line) : blockPred l = hasPipe l := by
  cases hp : hasPipe l
  · simp [blockPred, hp]
  · exact blockPred_of_hasPipe hp

theorem takeWhile_append_stop {p : Line → Bool} {A B : List Line}
    (hA : ∀ x ∈ A, p x = true)
    (hB : B = [] ∨ ∃ h t, B = h :: t ∧ p h = false) :
    (A ++ B).takeWhile p = A ∧ (A ++ B).dropWhile p = B := by
  induction A with
  | nil =>
    simp only [List.nil_append]
    rcases hB with rfl | ⟨h, t, rfl, hph⟩
    · simp
    · rw [List.takeWhile_cons, if_neg (by simp [hph]), List.dropWhile_cons,
        if_neg (by simp [hph])]
      exact ⟨rfl, rfl⟩
  | cons a A2 ih =>
    obtain ⟨ih1, ih2⟩ := ih (fun x hx => hA x (by simp [hx]))
    rw [List.cons_append, List.takeWhile_cons, if_pos (hA a (by simp)),
      List.dropWhile_cons, if_pos (hA a (by simp))]
    exact ⟨by rw [ih1], by rw [ih2]⟩

theorem startCond_append_blanks {l : Line} {B E : List Line}
    (hE : ∀ e ∈ E, e = []) : startCond l (B ++ E) = startCond l B := by
  cases B with
  | cons b B2 => rfl
  | nil =>
    simp only [List.nil_append]
    cases E with
    | nil => rfl
    | cons e E2 =>
      rw [hE e (by simp)]
      simp [startCond, hasPipe]

theorem pass2_all_empty :
    ∀ E : List Line, (∀ e ∈ E, e = []) → pass2 E = some E := by
  intro E
  induction E with
  | nil => exact fun _ => pass2_nilE
  | cons e E2 ih =>
    intro h
    have he : e = [] := h e (by simp)
    subst he
    rw [pass2_cons_noblock _ _ (by
      cases E2 with
      | nil => decide
      | cons f F =>
        rw [h f (by simp)]
        simp [startCond, hasPipe]),
      ih (fun x hx => h x (by simp [hx]))]
    rfl

theorem pass2_dropWhile_head {X o : List Line}
    (h : pass2 (X.dropWhile blockPred) = some o) :
    o = [] ∨ ∃ h0 t0, o = h0 :: t0 ∧ blockPred h0 = false := by
  cases hdw : X.dropWhile blockPred with
  | nil =>
    rw [hdw, pass2_nilE] at h
    cases h
    exact Or.inl rfl
  | cons r0 ro =>
    have hb : blockPred r0 = false := by
      have hh : (X.dropWhile blockPred).head? = some r0 := by rw [hdw]; rfl
      exact head?_dropWhile_false hh
    have hp : hasPipe r0 = false := by
      cases hhp : hasPipe r0
      · rfl
      · rw [blockPred_of_hasPipe hhp] at hb
        simp at hb
    have hsc : startCond r0 ro = false := by
      rw [startCond, hp]
      rfl
    rw [hdw, pass2_cons_noblock _ _ hsc] at h
    obtain ⟨o2, _, rfl⟩ := Option.map_eq_some'.mp h
    exact Or.inr ⟨r0, o2, rfl, hb⟩

theorem validate_blk_isSome {l : Line} {rest : List Line}
    (hsc : startCond l rest = true) :
    (validate_table (parse_table_block ((l :: rest).takeWhile blockPred)).1
      (parse_table_block ((l :: rest).takeWhile blockPred)).2).isSome
        = true := by
  obtain ⟨l2, rest2, rfl, h1, h2, _⟩ := startCond_shape hsc
  rw [takeWhile_block_cons2 h1 h2]
  rw [show parse_table_block (l :: l2 :: rest2.takeWhile blockPred) =
      (split_row l :: (rest2.takeWhile blockPred).map split_row,
        some (pyStrip l2)) from rfl]
  exact validate_table_isSome _ _

/-! ## C1 groundwork : reformatted blocks re-parse to the same table -/

theorem noTerm_split_row {r : Line} (hr : noTerm r) :
    ∀ cell ∈ split_row r, noTerm cell := by
  intro cell hc c hcc
  exact hr c (mem_split_row_subset hc hcc)

theorem hasPipe_fmtRowLine (ws : List Nat) (cells : List Line) :
    hasPipe (fmtRowLine ws cells) = true := by
  rw [fmtRowLine]
  exact hasPipe_barJoin _

theorem hasPipe_sepRowLine (ws : List Nat) :
    hasPipe (sepRowLine ws) = true := by
  rw [sepRowLine]
  exact hasPipe_barJoin _

theorem split_row_fmtRow_roundtrip {b : Line} {ws : List Nat}
    (hlen : (split_row b).length = ws.length) :
    split_row (fmtRowLine ws (split_row b)) = split_row b :=
  split_row_fmtRow (split_row_ne_nil b) hlen
    (fun c hc => mem_split_row_stripped hc)
    (fun c hc => mem_split_row_no_pipe hc)

theorem revalidate_block {l : Line} {bt : List (List Line)} {ws : List Nat}
    (hall : ∀ r ∈ split_row l :: bt, r.length = (split_row l).length)
    (hlen : ws.length = (split_row l).length) :
    validate_table (split_row l :: bt) (some (sepRowLine ws))
      = some (true, TableMsg.valid) := by
  have hwsne : ws ≠ [] := by
    intro hc
    subst hc
    have h1 := split_row_ne_nil l
    have h2 : (split_row l).length = 0 := by simpa using hlen.symm
    exact h1 (List.length_eq_zero.mp h2)
  apply validate_table_ok_of_shape
  · simp
  · simpa using hall
  · rw [split_row_sepRow hwsne]
    simpa using hlen
  · intro p hp
    rw [split_row_sepRow hwsne] at hp
    obtain ⟨w, _, rfl⟩ := List.mem_map.mp hp
    exact isAlignMarker_replicate (by omega)

theorem map_split_row_fmtRows {bt : List Line} {ws : List Nat}
    (hall : ∀ b ∈ bt, (split_row b).length = ws.length) :
    ((bt.map split_row).map (fmtRowLine ws)).map split_row
      = bt.map split_row := by
  induction bt with
  | nil => simp
  | cons b bs ih =>
    rw [List.map_cons, List.map_cons, List.map_cons,
      split_row_fmtRow_roundtrip (hall b (by simp)),
      ih (fun x hx => hall x (by simp [hx]))]

theorem block_out_eq {l l2 : Line} {bt : List Line} {snd : TableMsg} {f : Line}
    (hl : noTerm l) (hbt : ∀ x ∈ bt, noTerm x)
    (hval : validate_table (split_row l :: bt.map split_row)
      (some (pyStrip l2)) = some (true, snd))
    (hfmt : format_table (split_row l :: bt.map split_row) = some f) :
    ∃ ws : List Nat,
      ws.length = (split_row l).length ∧
      computeWidths (split_row l).length (split_row l :: bt.map split_row)
        = some ws ∧
      pySplitlines f =
        fmtRowLine ws (split_row l) :: sepRowLine ws ::
          (bt.map split_row).map (fmtRowLine ws) := by
  obtain ⟨_, hall, _, _, _⟩ := validate_table_true_shape _ _ _ hval
  rcases format_table_some_eq hfmt with ⟨h1, _⟩ | ⟨h, t, ws, heq, hcw, hf⟩
  · cases h1
  · injection heq with he1 he2
    subst he1
    subst he2
    have hlen : ws.length = (split_row l).length :=
      computeWidths_length
        (fun r hr => Nat.le_of_eq (by simpa using hall r hr)) hcw
    refine ⟨ws, hlen, hcw, ?_⟩
    rw [hf]
    apply pySplitlines_join
    · intro x hx
      rcases List.mem_cons.mp hx with rfl | hx2
      · exact noTerm_fmtRowLine (noTerm_split_row hl)
      · rcases List.mem_cons.mp hx2 with rfl | hx3
        · exact noTerm_sepRowLine ws
        · obtain ⟨cells, hcells, rfl⟩ := List.mem_map.mp hx3
          obtain ⟨b, hb, rfl⟩ := List.mem_map.mp hcells
          exact noTerm_fmtRowLine (noTerm_split_row (hbt b hb))
    · intro x hx
      rcases List.mem_cons.mp hx with rfl | hx2
      · rw [fmtRowLine]
        exact barJoin_ne_nil _
      · rcases List.mem_cons.mp hx2 with rfl | hx3
        · rw [sepRowLine]
          exact barJoin_ne_nil _
        · obtain ⟨cells, hcells, rfl⟩ := List.mem_map.mp hx3
          rw [fmtRowLine]
          exact barJoin_ne_nil _
    · simp

/-! ## C1 : idempotence of the second pass -/

theorem pass2_append_block {a1 a2 : Line} {arest B : List Line}
    (hA : ∀ x ∈ a1 :: a2 :: arest, blockPred x = true)
    (hd2 : dash3 a2 = true)
    (hB : B = [] ∨ ∃ h0 t0, B = h0 :: t0 ∧ blockPred h0 = false) :
    pass2 ((a1 :: a2 :: arest) ++ B) =
      match validate_table
          (parse_table_block (a1 :: a2 :: arest)).1
          (parse_table_block (a1 :: a2 :: arest)).2 with
      | none => none
      | some (ok, _) =>
        if ok then
          match format_table (parse_table_block (a1 :: a2 :: arest)).1 with
          | none => none
          | some f => (pass2 B).map (fun o => pySplitlines f ++ o)
        else (pass2 B).map (fun o => (a1 :: a2 :: arest) ++ o) := by
  have hp1 : hasPipe a1 = true := by
    rw [← blockPred_eq_hasPipe]
    exact hA a1 (by simp)
  have hp2 : hasPipe a2 = true := by
    rw [← blockPred_eq_hasPipe]
    exact hA a2 (by simp)
  have hsc : startCond a1 ((a2 :: arest) ++ B) = true := by
    rw [startCond, List.cons_append]
    simp only [List.head?_cons]
    rw [hp1, hp2, hd2]
    rfl
  show pass2 (a1 :: ((a2 :: arest) ++ B)) = _
  rw [pass2_cons_block _ _ hsc]
  have hshape : a1 :: ((a2 :: arest) ++ B) = (a1 :: a2 :: arest) ++ B := by
    simp
  rw [hshape]
  obtain ⟨hT, hD⟩ := takeWhile_append_stop hA hB
  rw [hT, hD]

theorem pass2_head_pipe_dash {r : Line} {ro o : List Line}
    (hnt : ∀ x ∈ r :: ro, noTerm x)
    (h : pass2 (r :: ro) = some o) :
    ∃ h0 t0, o = h0 :: t0 ∧ hasPipe h0 = hasPipe r ∧
      (dash3 h0 = true → dash3 r = true) := by
  by_cases hsc : startCond r ro = true
  · obtain ⟨l2, rest2, hrest, hp1, hp2, hd2⟩ := startCond_shape hsc
    subst hrest
    rw [pass2_cons_block _ _ hsc, takeWhile_block_cons2 hp1 hp2,
      show parse_table_block (r :: l2 :: rest2.takeWhile blockPred) =
        (split_row r :: (rest2.takeWhile blockPred).map split_row,
          some (pyStrip l2)) from rfl] at h
    cases hval : validate_table
        (split_row r :: (rest2.takeWhile blockPred).map split_row)
        (some (pyStrip l2)) with
    | none =>
      rw [hval] at h
      cases h
    | some pr =>
      obtain ⟨ok, snd⟩ := pr
      rw [hval] at h
      cases ok with
      | true =>
        dsimp only at h
        rw [if_pos rfl] at h
        cases hfmt : format_table
            (split_row r :: (rest2.takeWhile blockPred).map split_row) with
        | none =>
          rw [hfmt] at h
          cases h
        | some f =>
          rw [hfmt] at h
          obtain ⟨o2, _, rfl⟩ := Option.map_eq_some'.mp h
          obtain ⟨ws, hwslen, _, hsplit⟩ := block_out_eq
            (hnt r (by simp))
            (fun x hx => hnt x (by
              simp only [List.mem_cons]
              right
              right
              exact (List.takeWhile_sublist _).subset hx))
            hval hfmt
          rw [hsplit]
          refine ⟨fmtRowLine ws (split_row r),
            (sepRowLine ws ::
              ((rest2.takeWhile blockPred).map split_row).map
                (fmtRowLine ws)) ++ o2, by simp, ?_, ?_⟩
          · rw [hasPipe_fmtRowLine, hp1]
          · intro hd
            exact dash3_fmtRow_transfer hd
      | false =>
        dsimp only at h
        rw [if_neg (by simp)] at h
        obtain ⟨o2, _, rfl⟩ := Option.map_eq_some'.mp h
        exact ⟨r, (l2 :: rest2.takeWhile blockPred) ++ o2, by simp, rfl,
          fun hd => hd⟩
  · rw [pass2_cons_noblock _ _ (by simpa using hsc)] at h
    obtain ⟨o2, _, rfl⟩ := Option.map_eq_some'.mp h
    exact ⟨r, o2, rfl, rfl, fun hd => hd⟩

theorem pass2_idem :
    ∀ L : List Line, (∀ x ∈ L, noTerm x) →
      ∀ M, pass2 L = some M → pass2 M = some M := by
  intro L
  induction L using pass2.induct with
  | case1 =>
    intro _ M hM
    rw [pass2_nilE] at hM
    cases hM
    exact pass2_nilE
  | case2 l rest hsc blk pr hval =>
    intro hnt M hM
    exfalso
    have hval2 : validate_table
        (parse_table_block ((l :: rest).takeWhile blockPred)).1
        (parse_table_block ((l :: rest).takeWhile blockPred)).2 = none := hval
    have hsome := validate_blk_isSome hsc
    rw [hval2] at hsome
    simp at hsome
  | case3 l rest hsc blk pr snd hfmt hval =>
    intro hnt M hM
    exfalso
    obtain ⟨l2, rest2, hrest, h1, h2, _⟩ := startCond_shape hsc
    subst hrest
    have hval2 : validate_table
        (parse_table_block ((l :: l2 :: rest2).takeWhile blockPred)).1
        (parse_table_block ((l :: l2 :: rest2).takeWhile blockPred)).2 =
          some (true, snd) := hval
    have hfmt2 : format_table
        (parse_table_block ((l :: l2 :: rest2).takeWhile blockPred)).1 =
          none := hfmt
    rw [takeWhile_block_cons2 h1 h2] at hval2 hfmt2
    rw [show parse_table_block (l :: l2 :: rest2.takeWhile blockPred) =
        (split_row l :: (rest2.takeWhile blockPred).map split_row,
          some (pyStrip l2)) from rfl] at hval2 hfmt2
    obtain ⟨_, hall, _, _, _⟩ := validate_table_true_shape _ _ _ hval2
    have hs := format_table_some_of_shape _ hall
    rw [hfmt2] at hs
    simp at hs
  | case4 l rest hsc blk rds pr snd f hfmt hval ih =>
    intro hnt M hM
    obtain ⟨l2, rest2, hrest, hp1, hp2, hd2⟩ := startCond_shape hsc
    subst hrest
    have hval2 : validate_table
        (parse_table_block ((l :: l2 :: rest2).takeWhile blockPred)).1
        (parse_table_block ((l :: l2 :: rest2).takeWhile blockPred)).2 =
          some (true, snd) := hval
    have hfmt2 : format_table
        (parse_table_block ((l :: l2 :: rest2).takeWhile blockPred)).1 =
          some f := hfmt
    rw [takeWhile_block_cons2 hp1 hp2] at hval2 hfmt2
    rw [show parse_table_block (l :: l2 :: rest2.takeWhile blockPred) =
        (split_row l :: (rest2.takeWhile blockPred).map split_row,
          some (pyStrip l2)) from rfl] at hval2 hfmt2
    rw [pass2_cons_block _ _ hsc, takeWhile_block_cons2 hp1 hp2,
      show parse_table_block (l :: l2 :: rest2.takeWhile blockPred) =
        (split_row l :: (rest2.takeWhile blockPred).map split_row,
          some (pyStrip l2)) from rfl, hval2] at hM
    dsimp only at hM
    rw [if_pos rfl, hfmt2] at hM
    obtain ⟨o, ho, rfl⟩ := Option.map_eq_some'.mp hM
    have ih2 : (∀ x ∈ (l :: l2 :: rest2).dropWhile blockPred, noTerm x) →
        ∀ N, pass2 ((l :: l2 :: rest2).dropWhile blockPred) = some N →
          pass2 N = some N := ih
    have ho2 : pass2 o = some o :=
      ih2 (fun x hx => hnt x ((List.dropWhile_sublist _).subset hx)) o ho
    obtain ⟨ws, hwslen, hcw, hsplit⟩ := block_out_eq (hnt l (by simp))
      (fun x hx => hnt x (by
        simp only [List.mem_cons]
        right
        right
        exact (List.takeWhile_sublist _).subset hx)) hval2 hfmt2
    obtain ⟨_, hall, _, _, _⟩ := validate_table_true_shape _ _ _ hval2
    have hwsne : ws ≠ [] := by
      intro hc
      subst hc
      exact split_row_ne_nil l
        (List.length_eq_zero.mp (by simpa using hwslen.symm))
    rw [hsplit]
    have hAall : ∀ x ∈ fmtRowLine ws (split_row l) :: sepRowLine ws ::
        ((rest2.takeWhile blockPred).map split_row).map (fmtRowLine ws),
        blockPred x = true := by
      intro x hx
      rcases List.mem_cons.mp hx with rfl | hx2
      · exact blockPred_of_hasPipe (hasPipe_fmtRowLine _ _)
      · rcases List.mem_cons.mp hx2 with rfl | hx3
        · exact blockPred_of_hasPipe (hasPipe_sepRowLine _)
        · obtain ⟨cells, _, rfl⟩ := List.mem_map.mp hx3
          exact blockPred_of_hasPipe (hasPipe_fmtRowLine _ _)
    rw [pass2_append_block hAall (dash3_sepRowLine hwsne)
      (pass2_dropWhile_head ho)]
    rw [show parse_table_block (fmtRowLine ws (split_row l) :: sepRowLine ws ::
        ((rest2.takeWhile blockPred).map split_row).map (fmtRowLine ws)) =
        (split_row (fmtRowLine ws (split_row l)) ::
          (((rest2.takeWhile blockPred).map split_row).map
            (fmtRowLine ws)).map split_row,
          some (pyStrip (sepRowLine ws))) from rfl]
    have hall2 : ∀ b ∈ rest2.takeWhile blockPred,
        (split_row b).length = ws.length := by
      intro b hb
      rw [hwslen]
      have hmem : split_row b ∈
          split_row l :: (rest2.takeWhile blockPred).map split_row := by
        simp only [List.mem_cons]
        right
        exact List.mem_map.mpr ⟨b, hb, rfl⟩
      simpa using hall _ hmem
    rw [split_row_fmtRow_roundtrip hwslen.symm, map_split_row_fmtRows hall2,
      show pyStrip (sepRowLine ws) = sepRowLine ws from by
        rw [sepRowLine]; exact pyStrip_barJoin _,
      revalidate_block (by simpa using hall) hwslen]
    dsimp only
    rw [if_pos rfl, hfmt2]
    dsimp only
    rw [ho2, hsplit]
    rfl
  | case5 l rest hsc blk rds pr ok snd hval hok ih =>
    intro hnt M hM
    obtain ⟨l2, rest2, hrest, hp1, hp2, hd2⟩ := startCond_shape hsc
    subst hrest
    have hokf : ok = false := by
      cases ok with
      | false => rfl
      | true => exact absurd rfl hok
    subst hokf
    have hval2 : validate_table
        (parse_table_block ((l :: l2 :: rest2).takeWhile blockPred)).1
        (parse_table_block ((l :: l2 :: rest2).takeWhile blockPred)).2 =
          some (false, snd) := hval
    rw [takeWhile_block_cons2 hp1 hp2] at hval2
    rw [show parse_table_block (l :: l2 :: rest2.takeWhile blockPred) =
        (split_row l :: (rest2.takeWhile blockPred).map split_row,
          some (pyStrip l2)) from rfl] at hval2
    rw [pass2_cons_block _ _ hsc, takeWhile_block_cons2 hp1 hp2,
      show parse_table_block (l :: l2 :: rest2.takeWhile blockPred) =
        (split_row l :: (rest2.takeWhile blockPred).map split_row,
          some (pyStrip l2)) from rfl, hval2] at hM
    dsimp only at hM
    rw [if_neg (by simp)] at hM
    obtain ⟨o, ho, rfl⟩ := Option.map_eq_some'.mp hM
    have ih2 : (∀ x ∈ (l :: l2 :: rest2).dropWhile blockPred, noTerm x) →
        ∀ N, pass2 ((l :: l2 :: rest2).dropWhile blockPred) = some N →
          pass2 N = some N := ih
    have ho2 : pass2 o = some o :=
      ih2 (fun x hx => hnt x ((List.dropWhile_sublist _).subset hx)) o ho
    have hAall : ∀ x ∈ l :: l2 :: rest2.takeWhile blockPred,
        blockPred x = true := by
      intro x hx
      rcases List.mem_cons.mp hx with rfl | hx2
      · exact blockPred_of_hasPipe hp1
      · rcases List.mem_cons.mp hx2 with rfl | hx3
        · exact blockPred_of_hasPipe hp2
        · exact List.mem_takeWhile_imp hx3
    rw [pass2_append_block hAall hd2 (pass2_dropWhile_head ho)]
    rw [show parse_table_block (l :: l2 :: rest2.takeWhile blockPred) =
        (split_row l :: (rest2.takeWhile blockPred).map split_row,
          some (pyStrip l2)) from rfl, hval2]
    dsimp only
    rw [if_neg (by simp), ho2]
    rfl
  | case6 l rest hsc ih =>
    intro hnt M hM
    have hsc2 : startCond l rest = false := by simpa using hsc
    rw [pass2_cons_noblock _ _ hsc2] at hM
    obtain ⟨o, ho, rfl⟩ := Option.map_eq_some'.mp hM
    have ho2 : pass2 o = some o :=
      ih (fun x hx => hnt x (by simp [hx])) o ho
    have hsco : startCond l o = false := by
      cases hpl : hasPipe l with
      | false =>
        rw [startCond, hpl]
        rfl
      | true =>
        cases rest with
        | nil =>
          rw [pass2_nilE] at ho
          cases ho
          simp [startCond]
        | cons r ro =>
          obtain ⟨h0, t0, rfl, hph, hdh⟩ := pass2_head_pipe_dash
            (fun x hx => hnt x (by simp [hx])) ho
          rw [startCond] at hsc2 ⊢
          simp only [List.head?_cons] at hsc2 ⊢
          rw [hpl] at hsc2 ⊢
          simp only [Bool.true_and] at hsc2 ⊢
          rw [hph]
          cases hpr : hasPipe r with
          | false => rfl
          | true =>
            rw [hpr] at hsc2
            simp only [Bool.true_and] at hsc2 ⊢
            cases hdh0 : dash3 h0 with
            | false => rfl
            | true => exact absurd hsc2 (by simp [hdh hdh0])
    rw [pass2_cons_noblock _ _ hsco, ho2]
    rfl

theorem takeWhile_block_append_blanks (A : List Line) {E : List Line}
    (hE : ∀ e ∈ E, e = []) :
    (A ++ E).takeWhile blockPred = A.takeWhile blockPred ∧
    (A ++ E).dropWhile blockPred = A.dropWhile blockPred ++ E := by
  have hEtw : E.takeWhile blockPred = [] := by
    cases E with
    | nil => rfl
    | cons e E2 =>
      rw [List.takeWhile_cons, hE e (by simp), if_neg (by decide)]
  have hEdw : E.dropWhile blockPred = E := by
    cases E with
    | nil => rfl
    | cons e E2 =>
      rw [List.dropWhile_cons, hE e (by simp), if_neg (by decide)]
  constructor
  · rw [List.takeWhile_append, hEtw]
    by_cases hc : (A.takeWhile blockPred).length = A.length
    · rw [if_pos hc, List.append_nil]
      exact ((List.takeWhile_prefix _).eq_of_length hc).symm
    · rw [if_neg hc]
  · rw [List.dropWhile_append, hEdw]
    by_cases hc : (A.dropWhile blockPred).isEmpty = true
    · rw [if_pos hc, List.isEmpty_iff.mp hc]
      rfl
    · rw [if_neg hc]

theorem pass2_strip_empties :
    ∀ A : List Line, ∀ E : List Line, (∀ e ∈ E, e = []) →
      ∀ M, pass2 (A ++ E) = some M →
        ∃ o, pass2 A = some o ∧ M = o ++ E := by
  intro A
  induction A using pass2.induct with
  | case1 =>
    intro E hE M hM
    simp only [List.nil_append] at hM
    rw [pass2_all_empty E hE] at hM
    cases hM
    exact ⟨[], pass2_nilE, rfl⟩
  | case2 l rest hsc blk pr hval =>
    intro E hE M hM
    exfalso
    have hval2 : validate_table
        (parse_table_block ((l :: rest).takeWhile blockPred)).1
        (parse_table_block ((l :: rest).takeWhile blockPred)).2 = none := hval
    have hsome := validate_blk_isSome hsc
    rw [hval2] at hsome
    simp at hsome
  | case3 l rest hsc blk pr snd hfmt hval =>
    intro E hE M hM
    exfalso
    obtain ⟨l2, rest2, hrest, h1, h2, _⟩ := startCond_shape hsc
    subst hrest
    have hval2 : validate_table
        (parse_table_block ((l :: l2 :: rest2).takeWhile blockPred)).1
        (parse_table_block ((l :: l2 :: rest2).takeWhile blockPred)).2 =
          some (true, snd) := hval
    have hfmt2 : format_table
        (parse_table_block ((l :: l2 :: rest2).takeWhile blockPred)).1 =
          none := hfmt
    rw [takeWhile_block_cons2 h1 h2] at hval2 hfmt2
    rw [show parse_table_block (l :: l2 :: rest2.takeWhile blockPred) =
        (split_row l :: (rest2.takeWhile blockPred).map split_row,
          some (pyStrip l2)) from rfl] at hval2 hfmt2
    obtain ⟨_, hall, _, _, _⟩ := validate_table_true_shape _ _ _ hval2
    have hs := format_table_some_of_shape _ hall
    rw [hfmt2] at hs
    simp at hs
  | case4 l rest hsc blk rds pr snd f hfmt hval ih =>
    intro E hE M hM
    have hval2 : validate_table
        (parse_table_block ((l :: rest).takeWhile blockPred)).1
        (parse_table_block ((l :: rest).takeWhile blockPred)).2 =
          some (true, snd) := hval
    have hfmt2 : format_table
        (parse_table_block ((l :: rest).takeWhile blockPred)).1 =
          some f := hfmt
    have hsc2 : startCond l (rest ++ E) = true := by
      rw [startCond_append_blanks hE]
      exact hsc
    rw [show (l :: rest) ++ E = l :: (rest ++ E) from rfl] at hM
    rw [pass2_cons_block _ _ hsc2] at hM
    rw [show l :: (rest ++ E) = (l :: rest) ++ E from rfl] at hM
    obtain ⟨htw, hdw⟩ := takeWhile_block_append_blanks (l :: rest) hE
    rw [htw, hdw, hval2] at hM
    dsimp only at hM
    rw [if_pos rfl, hfmt2] at hM
    dsimp only at hM
    obtain ⟨M2, hM2, rfl⟩ := Option.map_eq_some'.mp hM
    have ih2 : ∀ E2 : List Line, (∀ e ∈ E2, e = []) →
        ∀ N, pass2 ((l :: rest).dropWhile blockPred ++ E2) = some N →
          ∃ o, pass2 ((l :: rest).dropWhile blockPred) = some o ∧
            N = o ++ E2 := ih
    obtain ⟨o, ho, rfl⟩ := ih2 E hE M2 hM2
    refine ⟨pySplitlines f ++ o, ?_, by simp⟩
    rw [pass2_cons_block _ _ hsc, hval2]
    dsimp only
    rw [if_pos rfl, hfmt2]
    dsimp only
    rw [ho]
    rfl
  | case5 l rest hsc blk rds pr ok snd hval hok ih =>
    intro E hE M hM
    have hokf : ok = false := by
      cases ok with
      | false => rfl
      | true => exact absurd rfl hok
    subst hokf
    have hval2 : validate_table
        (parse_table_block ((l :: rest).takeWhile blockPred)).1
        (parse_table_block ((l :: rest).takeWhile blockPred)).2 =
          some (false, snd) := hval
    have hsc2 : startCond l (rest ++ E) = true := by
      rw [startCond_append_blanks hE]
      exact hsc
    rw [show (l :: rest) ++ E = l :: (rest ++ E) from rfl] at hM
    rw [pass2_cons_block _ _ hsc2] at hM
    rw [show l :: (rest ++ E) = (l :: rest) ++ E from rfl] at hM
    obtain ⟨htw, hdw⟩ := takeWhile_block_append_blanks (l :: rest) hE
    rw [htw, hdw, hval2] at hM
    dsimp only at hM
    rw [if_neg (by simp)] at hM
    obtain ⟨M2, hM2, rfl⟩ := Option.map_eq_some'.mp hM
    have ih2 : ∀ E2 : List Line, (∀ e ∈ E2, e = []) →
        ∀ N, pass2 ((l :: rest).dropWhile blockPred ++ E2) = some N →
          ∃ o, pass2 ((l :: rest).dropWhile blockPred) = some o ∧
            N = o ++ E2 := ih
    obtain ⟨o, ho, rfl⟩ := ih2 E hE M2 hM2
    refine ⟨(l :: rest).takeWhile blockPred ++ o, ?_, by simp⟩
    rw [pass2_cons_block _ _ hsc, hval2]
    dsimp only
    rw [if_neg (by simp), ho]
    rfl
  | case6 l rest hsc ih =>
    intro E hE M hM
    have hsc2 : startCond l rest = false := by simpa using hsc
    have hsc3 : startCond l (rest ++ E) = false := by
      rw [startCond_append_blanks hE]
      exact hsc2
    rw [show (l :: rest) ++ E = l :: (rest ++ E) from rfl,
      pass2_cons_noblock _ _ hsc3] at hM
    obtain ⟨M2, hM2, rfl⟩ := Option.map_eq_some'.mp hM
    obtain ⟨o, ho, rfl⟩ := ih E hE M2 hM2
    refine ⟨l :: o, ?_, by simp⟩
    rw [pass2_cons_noblock _ _ hsc2, ho]
    rfl

/-! ## C1 : first-pass heading normalization facts -/

theorem takeWhile_hash_nil {l : Line} (h : l.head? ≠ some '#') :
    l.takeWhile (· == '#') = [] := by
  cases l with
  | nil => rfl
  | cons c r =>
    rw [List.takeWhile_cons, if_neg]
    intro hc
    simp only [beq_iff_eq] at hc
    exact h (by rw [hc]; rfl)

theorem normalize_heading_no_hash {l : Line} (h : l.head? ≠ some '#') :
    normalize_heading l = l := by
  rw [normalize_heading, takeWhile_hash_nil h]
  simp

theorem headingMatch_no_hash {l : Line} (h : l.head? ≠ some '#') :
    headingMatch l = false := by
  rw [headingMatch, takeWhile_hash_nil h]
  simp

theorem takeWhile_hash_replicate (k : Nat) {rest : Line}
    (h : rest.head? ≠ some '#') :
    (List.replicate k '#' ++ rest).takeWhile (· == '#')
      = List.replicate k '#' := by
  induction k with
  | zero => simpa using takeWhile_hash_nil h
  | succ m ih =>
    rw [List.replicate_succ, List.cons_append, List.takeWhile_cons,
      if_pos (by decide), ih, ← List.replicate_succ]

theorem run_pos_of_hash {l : Line} (h : l.head? = some '#') :
    1 ≤ (l.takeWhile (· == '#')).length := by
  cases l with
  | nil => simp at h
  | cons c r =>
    simp only [List.head?_cons, Option.some.injEq] at h
    subst h
    rw [List.takeWhile_cons, if_pos (by decide)]
    simp

theorem norm_hash_eq {l : Line} (hnt : noTerm l) (h : l.head? = some '#') :
    normalize_heading l =
      List.replicate (min (l.takeWhile (· == '#')).length 6) '#' ++
        ' ' :: pyStrip (l.drop (min (l.takeWhile (· == '#')).length 6)) := by
  have hrun := run_pos_of_hash h
  have hcond : '\n' ∉
      ((l.drop (min (l.takeWhile (· == '#')).length 6)).dropWhile
        wsp).dropLast := by
    intro hc
    have h2 : '\n' ∈ l :=
      List.drop_subset _ l
        ((List.dropWhile_sublist wsp).subset (List.dropLast_subset _ hc))
    have h3 := hnt '\n' h2
    simp [termCh] at h3
  rw [normalize_heading]
  simp only
  rw [if_pos hrun, if_pos (by simpa using hcond)]

theorem pyStrip_replicate_hash {n : Nat} (hn : 1 ≤ n) :
    pyStrip (List.replicate n '#') = List.replicate n '#' := by
  apply pyStrip_head_last
  · intro c hc
    cases n with
    | zero => omega
    | succ m =>
      rw [List.replicate_succ] at hc
      simp only [List.head?_cons, Option.some.injEq] at hc
      subst hc
      decide
  · intro c hc
    cases n with
    | zero => omega
    | succ m =>
      rw [List.replicate_succ'] at hc
      rw [List.getLast?_concat] at hc
      simp only [Option.some.injEq] at hc
      subst hc
      decide

theorem strip_hash_space {k : Nat} (hk : 1 ≤ k) :
    pyStrip (List.replicate k '#' ++ [' ']) = List.replicate k '#' := by
  rw [show List.replicate k '#' ++ [' ']
      = [] ++ List.replicate k '#' ++ [' '] from by simp]
  rw [pyStrip_pad [] _ [' '] (by simp) (by decide)]
  exact pyStrip_replicate_hash hk

theorem strip_space_cons (t : Line) : pyStrip (' ' :: t) = pyStrip t := by
  rw [show ' ' :: t = [' '] ++ t ++ [] from by simp]
  rw [pyStrip_pad [' '] t [] (by decide) (by simp)]

theorem headingMatch_form {k : Nat} (hk1 : 1 ≤ k) (hk6 : k ≤ 6) (T : Line) :
    headingMatch (List.replicate k '#' ++ ' ' :: T) = true := by
  rw [headingMatch]
  rw [takeWhile_hash_replicate k (by simp), List.length_replicate,
    List.drop_left' (by simp)]
  have hws : wsp ' ' = true := by decide
  simp [hk1, hk6, hws]

theorem head?_replicate_hash_append {k : Nat} (hk : 1 ≤ k) (r : Line) :
    (List.replicate k '#' ++ r).head? = some '#' := by
  cases k with
  | zero => omega
  | succ m =>
    rw [List.replicate_succ, List.cons_append]
    rfl

theorem strip_norm_isNorm {l : Line} (hnt : noTerm l)
    (h : l.head? = some '#') :
    isNormHeading (pyStrip (normalize_heading l)) := by
  rw [norm_hash_eq hnt h]
  have hrun := run_pos_of_hash h
  have hk1 : 1 ≤ min (l.takeWhile (· == '#')).length 6 := by omega
  have hk6 : min (l.takeWhile (· == '#')).length 6 ≤ 6 := by
    exact Nat.min_le_right _ _
  cases hT : pyStrip (l.drop (min (l.takeWhile (· == '#')).length 6)) with
  | nil =>
    rw [show (' ' :: ([] : Line)) = [' '] from rfl, strip_hash_space hk1]
    exact ⟨_, hk1, hk6, Or.inl rfl⟩
  | cons a t =>
    have hTstr : pyStrip (a :: t) = a :: t := by
      rw [← hT]
      exact pyStrip_idem _
    have hstr : pyStrip
        (List.replicate (min (l.takeWhile (· == '#')).length 6) '#' ++
          ' ' :: a :: t) =
        List.replicate (min (l.takeWhile (· == '#')).length 6) '#' ++
          ' ' :: a :: t := by
      apply pyStrip_head_last
      · intro c hc
        rw [head?_replicate_hash_append hk1] at hc
        simp only [Option.some.injEq] at hc
        subst hc
        decide
      · intro c hc
        rw [List.getLast?_append, List.getLast?_cons_cons] at hc
        cases hg : (a :: t).getLast? with
        | none => simp at hg
        | some d =>
          rw [hg] at hc
          have hcd : d = c := by simpa using hc
          subst hcd
          exact stripped_last_not_ws hTstr hg
    rw [hstr]
    exact ⟨_, hk1, hk6, Or.inr ⟨a :: t, by simp, hTstr, rfl⟩⟩

/-! ## C1 : first-pass invariants and fixed point -/

theorem pass1_cons (l : Line) (rest : List Line) :
    pass1 (l :: rest) =
      if headingMatch (normalize_heading l) then
        pyStrip (normalize_heading l) ::
          (match rest.head? with
           | some r => if (pyStrip r).isEmpty then [] else [[]]
           | none => []) ++ pass1 rest
      else pyRstrip (normalize_heading l) :: pass1 rest := rfl

theorem Good_nil : Good [] := trivial

theorem Good_cons {l : Line} {rest : List Line} :
    Good (l :: rest) ↔
      (startsHash l → isNormHeading l ∧ rest.head?.getD [] = []) ∧
        Good rest :=
  Iff.rfl

theorem norm_bare {k : Nat} (hk1 : 1 ≤ k) (hk6 : k ≤ 6) :
    normalize_heading (List.replicate k '#')
      = List.replicate k '#' ++ [' '] := by
  have hnt : noTerm (List.replicate k '#') := by
    intro c hc
    rw [List.eq_of_mem_replicate hc]
    decide
  rw [norm_hash_eq hnt (by
    cases k with
    | zero => omega
    | succ m => rw [List.replicate_succ]; rfl)]
  rw [List.takeWhile_eq_self_iff.mpr (by
    intro x hx
    rw [List.eq_of_mem_replicate hx]
    decide), List.length_replicate, Nat.min_eq_left hk6]
  rw [show (List.replicate k '#').drop k = [] from by simp]
  rfl

theorem norm_spaced {k : Nat} {t : Line} (hk1 : 1 ≤ k) (hk6 : k ≤ 6)
    (htne : t ≠ []) (hts : pyStrip t = t) (hnt : noTerm t) :
    normalize_heading (List.replicate k '#' ++ ' ' :: t)
      = List.replicate k '#' ++ ' ' :: t := by
  have hline_nt : noTerm (List.replicate k '#' ++ ' ' :: t) := by
    intro c hc
    rcases List.mem_append.mp hc with h1 | h1
    · rw [List.eq_of_mem_replicate h1]
      decide
    · rcases List.mem_cons.mp h1 with rfl | h2
      · decide
      · exact hnt c h2
  rw [norm_hash_eq hline_nt (head?_replicate_hash_append hk1 _)]
  rw [takeWhile_hash_replicate k (by simp), List.length_replicate,
    Nat.min_eq_left hk6, List.drop_left' (by simp)]
  rw [strip_space_cons, hts]

theorem strip_spaced {k : Nat} {t : Line} (hk1 : 1 ≤ k)
    (htne : t ≠ []) (hts : pyStrip t = t) :
    pyStrip (List.replicate k '#' ++ ' ' :: t)
      = List.replicate k '#' ++ ' ' :: t := by
  apply pyStrip_head_last
  · intro c hc
    rw [head?_replicate_hash_append hk1] at hc
    simp only [Option.some.injEq] at hc
    subst hc
    decide
  · intro c hc
    cases t with
    | nil => exact absurd rfl htne
    | cons a t2 =>
      rw [List.getLast?_append, List.getLast?_cons_cons] at hc
      cases hg : (a :: t2).getLast? with
      | none => simp at hg
      | some d =>
        rw [hg] at hc
        have hcd : d = c := by simpa using hc
        subst hcd
        exact stripped_last_not_ws hts hg

theorem mem_normalize_heading {c : Char} {l : Line}
    (h : c ∈ normalize_heading l) : c = '#' ∨ c = ' ' ∨ c ∈ l := by
  have hX : ∀ k, c ∈ List.replicate k '#' ++ ' ' :: pyStrip (l.drop k) →
      c = '#' ∨ c = ' ' ∨ c ∈ l := by
    intro k hc
    rcases List.mem_append.mp hc with h1 | h1
    · exact Or.inl (List.eq_of_mem_replicate h1)
    · rcases List.mem_cons.mp h1 with rfl | h2
      · exact Or.inr (Or.inl rfl)
      · exact Or.inr (Or.inr (List.drop_subset _ l (mem_pyStrip h2)))
  simp only [normalize_heading] at h
  split at h
  · split at h
    · exact hX _ h
    · split at h
      · exact hX _ h
      · exact Or.inr (Or.inr h)
  · exact Or.inr (Or.inr h)

theorem noTerm_normalize {l : Line} (h : noTerm l) :
    noTerm (normalize_heading l) := by
  intro c hc
  rcases mem_normalize_heading hc with rfl | rfl | hm
  · decide
  · decide
  · exact h c hm

theorem pyStrip_nil_all_wsp {r : Line} (h : pyStrip r = []) :
    ∀ c ∈ r, wsp c = true := by
  intro c hc
  by_contra hn
  have h2 := mem_pyStrip_of_not_wsp (by simpa using hn) hc
  rw [h] at h2
  simp at h2

theorem pass1_head_blank {r : Line} (X2 : List Line) (h : pyStrip r = []) :
    (pass1 (r :: X2)).head? = some [] := by
  have hall := pyStrip_nil_all_wsp h
  have hh : r.head? ≠ some '#' := by
    cases r with
    | nil => simp
    | cons a t =>
      intro hc
      injection hc with hc2
      subst hc2
      exact absurd (hall '#' (by simp)) (by decide)
  rw [pass1_cons, normalize_heading_no_hash hh,
    if_neg (by simp [headingMatch_no_hash hh]),
    pyRstrip_nil_of_all_ws hall]
  rfl

theorem pass1_mem :
    ∀ X : List Line, (∀ x ∈ X, noTerm x) →
      ∀ y ∈ pass1 X, noTerm y ∧ rstripped y := by
  intro X
  induction X with
  | nil =>
    intro _ y hy
    simp [pass1] at hy
  | cons l rest ih =>
    intro hnt y hy
    rw [pass1_cons] at hy
    have hnl : noTerm l := hnt l (by simp)
    by_cases hm : headingMatch (normalize_heading l) = true
    · rw [if_pos hm] at hy
      rcases List.mem_cons.mp hy with rfl | hy2
      · exact ⟨fun c hc => noTerm_normalize hnl c (mem_pyStrip hc),
          rstripped_pyStrip _⟩
      · rcases List.mem_append.mp hy2 with hy3 | hy3
        · have hynil : y = [] := by
            cases rest with
            | nil => simp at hy3
            | cons r rs =>
              simp only [List.head?_cons] at hy3
              by_cases hr : (pyStrip r).isEmpty = true
              · rw [if_pos hr] at hy3
                simp at hy3
              · rw [if_neg hr] at hy3
                simpa using hy3
          subst hynil
          exact ⟨fun c hc => by simp at hc, rstripped_nil⟩
        · exact ih (fun x hx => hnt x (by simp [hx])) y hy3
    · rw [if_neg hm] at hy
      rcases List.mem_cons.mp hy with rfl | hy2
      · exact ⟨fun c hc => noTerm_normalize hnl c (mem_pyRstrip hc),
          rstripped_pyRstrip _⟩
      · exact ih (fun x hx => hnt x (by simp [hx])) y hy2

theorem pass1_good :
    ∀ X : List Line, (∀ x ∈ X, noTerm x) → Good (pass1 X) := by
  intro X
  induction X with
  | nil => intro _; exact trivial
  | cons l rest ih =>
    intro hnt
    have hnl : noTerm l := hnt l (by simp)
    rw [pass1_cons]
    by_cases hm : headingMatch (normalize_heading l) = true
    · rw [if_pos hm]
      have hlh : l.head? = some '#' := by
        by_cases hlh2 : l.head? = some '#'
        · exact hlh2
        · rw [normalize_heading_no_hash hlh2,
            headingMatch_no_hash hlh2] at hm
          simp at hm
      have hiso := strip_norm_isNorm hnl hlh
      cases rest with
      | nil => exact ⟨fun _ => ⟨hiso, rfl⟩, trivial⟩
      | cons r rs =>
        simp only [List.head?_cons]
        by_cases hr : (pyStrip r).isEmpty = true
        · rw [if_pos hr]
          refine ⟨fun _ => ⟨hiso, ?_⟩,
            ih (fun x hx => hnt x (by simp [hx]))⟩
          show (pass1 (r :: rs)).head?.getD [] = []
          rw [pass1_head_blank rs (List.isEmpty_iff.mp hr)]
          rfl
        · rw [if_neg hr]
          exact ⟨fun _ => ⟨hiso, rfl⟩,
            fun hc => absurd hc (by simp [startsHash]),
            ih (fun x hx => hnt x (by simp [hx]))⟩
    · rw [if_neg hm]
      refine ⟨?_, ih (fun x hx => hnt x (by simp [hx]))⟩
      intro hsh
      exfalso
      by_cases hlh : l.head? = some '#'
      · rw [norm_hash_eq hnl hlh] at hm
        exact hm (headingMatch_form (by
          have := run_pos_of_hash hlh
          omega) (Nat.min_le_right _ _) _)
      · rw [normalize_heading_no_hash hlh] at hsh
        exact hlh (head?_of_pre (pyRstrip_pre l) hsh)

theorem pass1_fixed :
    ∀ L : List Line, (∀ x ∈ L, noTerm x ∧ rstripped x) → Good L →
      pass1 L = L := by
  intro L
  induction L with
  | nil => intro _ _; rfl
  | cons l rest ih =>
    intro hinv hG
    obtain ⟨hGl, hGrest⟩ := hG
    obtain ⟨hnt, hrs⟩ := hinv l (by simp)
    have ihrest := ih (fun x hx => hinv x (by simp [hx])) hGrest
    rw [pass1_cons]
    by_cases hh : l.head? = some '#'
    · obtain ⟨hnorm, hsucc⟩ := hGl hh
      obtain ⟨k, hk1, hk6, hcase⟩ := hnorm
      rcases hcase with rfl | ⟨t, htne, hts, rfl⟩
      · rw [norm_bare hk1 hk6, if_pos (headingMatch_form hk1 hk6 []),
          strip_hash_space hk1, ihrest]
        cases rest with
        | nil => rfl
        | cons r rs =>
          have hr : r = [] := by simpa using hsucc
          subst hr
          simp only [List.head?_cons]
          rw [if_pos (by rfl)]
          rfl
      · rw [norm_spaced hk1 hk6 htne hts
            (fun c hc => hnt c (by simp [hc])),
          if_pos (headingMatch_form hk1 hk6 t),
          strip_spaced hk1 htne hts, ihrest]
        cases rest with
        | nil => rfl
        | cons r rs =>
          have hr : r = [] := by simpa using hsucc
          subst hr
          simp only [List.head?_cons]
          rw [if_pos (by rfl)]
          rfl
    · rw [normalize_heading_no_hash hh,
        if_neg (by simp [headingMatch_no_hash hh]),
        show pyRstrip l = l from hrs, ihrest]

/-! ## C1 : second-pass invariants -/

theorem startCond_nil_line (rs : List Line) : startCond [] rs = false := by
  rw [startCond]
  simp [hasPipe]

theorem pass2_blank_head {rds o : List Line}
    (h : pass2 rds = some o) (hh : rds.head?.getD [] = []) :
    o.head?.getD [] = [] := by
  cases rds with
  | nil =>
    rw [pass2_nilE] at h
    cases h
    rfl
  | cons r rs =>
    have hr : r = [] := by simpa using hh
    subst hr
    rw [pass2_cons_noblock _ _ (startCond_nil_line rs)] at h
    obtain ⟨o2, _, rfl⟩ := Option.map_eq_some'.mp h
    rfl

theorem Good_suffix : ∀ (A B : List Line), Good (A ++ B) → Good B := by
  intro A
  induction A with
  | nil => intro B h; exact h
  | cons a A2 ih => intro B h; exact ih B h.2

theorem Good_pre : ∀ (A L : List Line), Good L → A <+: L → Good A := by
  intro A
  induction A with
  | nil => intro L _ _; exact trivial
  | cons a A2 ih =>
    intro L hL hpre
    obtain ⟨r, hr⟩ := hpre
    subst hr
    obtain ⟨ha, hrest⟩ := hL
    refine ⟨?_, ih (A2 ++ r) hrest ⟨r, rfl⟩⟩
    intro hsh
    obtain ⟨hn, hsucc⟩ := ha hsh
    refine ⟨hn, ?_⟩
    cases A2 with
    | nil => rfl
    | cons b A3 => simpa using hsucc

theorem Good_replace_tail :
    ∀ (A B C : List Line), Good (A ++ B) → Good C →
      (B.head?.getD [] = [] → C.head?.getD [] = []) → Good (A ++ C) := by
  intro A
  induction A with
  | nil => intro B C _ hC _; exact hC
  | cons a A2 ih =>
    intro B C hAB hC htr
    obtain ⟨ha, hrest⟩ := hAB
    refine ⟨?_, ih B C hrest hC htr⟩
    intro hsh
    obtain ⟨hn, hsucc⟩ := ha hsh
    refine ⟨hn, ?_⟩
    cases A2 with
    | nil => exact htr hsucc
    | cons b A3 => simpa using hsucc

theorem Good_append_nohash :
    ∀ (A C : List Line), (∀ x ∈ A, ¬ startsHash x) → Good C →
      Good (A ++ C) := by
  intro A
  induction A with
  | nil => intro C _ hC; exact hC
  | cons a A2 ih =>
    intro C hA hC
    exact ⟨fun hsh => absurd hsh (hA a (by simp)),
      ih C (fun x hx => hA x (by simp [hx])) hC⟩

theorem barJoin_not_hash (ps : List Line) : ¬ startsHash (barJoin ps) := by
  intro h
  rw [startsHash, barJoin_head] at h
  simp at h

theorem dte_decomp (L : List Line) :
    ∃ E, L = dropTrailingEmpty L ++ E ∧ ∀ e ∈ E, e = [] := by
  refine ⟨(L.reverse.takeWhile (fun l => l.isEmpty)).reverse, ?_, ?_⟩
  · rw [dropTrailingEmpty, ← List.reverse_append,
      List.takeWhile_append_dropWhile, List.reverse_reverse]
  · intro e he
    rw [List.mem_reverse] at he
    have h2 := List.mem_takeWhile_imp he
    simpa [List.isEmpty_iff] using h2

theorem pass2_mem :
    ∀ L : List Line, (∀ x ∈ L, noTerm x ∧ rstripped x) →
      ∀ M, pass2 L = some M → ∀ y ∈ M, noTerm y ∧ rstripped y := by
  intro L
  induction L using pass2.induct with
  | case1 =>
    intro _ M hM
    rw [pass2_nilE] at hM
    cases hM
    intro y hy
    simp at hy
  | case2 l rest hsc blk pr hval =>
    intro hnt M hM
    exfalso
    have hval2 : validate_table
        (parse_table_block ((l :: rest).takeWhile blockPred)).1
        (parse_table_block ((l :: rest).takeWhile blockPred)).2 = none := hval
    have hsome := validate_blk_isSome hsc
    rw [hval2] at hsome
    simp at hsome
  | case3 l rest hsc blk pr snd hfmt hval =>
    intro hnt M hM
    exfalso
    obtain ⟨l2, rest2, hrest, h1, h2, _⟩ := startCond_shape hsc
    subst hrest
    have hval2 : validate_table
        (parse_table_block ((l :: l2 :: rest2).takeWhile blockPred)).1
        (parse_table_block ((l :: l2 :: rest2).takeWhile blockPred)).2 =
          some (true, snd) := hval
    have hfmt2 : format_table
        (parse_table_block ((l :: l2 :: rest2).takeWhile blockPred)).1 =
          none := hfmt
    rw [takeWhile_block_cons2 h1 h2] at hval2 hfmt2
    rw [show parse_table_block (l :: l2 :: rest2.takeWhile blockPred) =
        (split_row l :: (rest2.takeWhile blockPred).map split_row,
          some (pyStrip l2)) from rfl] at hval2 hfmt2
    obtain ⟨_, hall, _, _, _⟩ := validate_table_true_shape _ _ _ hval2
    have hs := format_table_some_of_shape _ hall
    rw [hfmt2] at hs
    simp at hs
  | case4 l rest hsc blk rds pr snd f hfmt hval ih =>
    intro hnt M hM
    obtain ⟨l2, rest2, hrest, hp1, hp2, hd2⟩ := startCond_shape hsc
    subst hrest
    have hval2 : validate_table
        (parse_table_block ((l :: l2 :: rest2).takeWhile blockPred)).1
        (parse_table_block ((l :: l2 :: rest2).takeWhile blockPred)).2 =
          some (true, snd) := hval
    have hfmt2 : format_table
        (parse_table_block ((l :: l2 :: rest2).takeWhile blockPred)).1 =
          some f := hfmt
    rw [takeWhile_block_cons2 hp1 hp2] at hval2 hfmt2
    rw [show parse_table_block (l :: l2 :: rest2.takeWhile blockPred) =
        (split_row l :: (rest2.takeWhile blockPred).map split_row,
          some (pyStrip l2)) from rfl] at hval2 hfmt2
    rw [pass2_cons_block _ _ hsc, takeWhile_block_cons2 hp1 hp2,
      show parse_table_block (l :: l2 :: rest2.takeWhile blockPred) =
        (split_row l :: (rest2.takeWhile blockPred).map split_row,
          some (pyStrip l2)) from rfl, hval2] at hM
    dsimp only at hM
    rw [if_pos rfl, hfmt2] at hM
    obtain ⟨o, ho, rfl⟩ := Option.map_eq_some'.mp hM
    have ih2 : (∀ x ∈ (l :: l2 :: rest2).dropWhile blockPred,
        noTerm x ∧ rstripped x) →
        ∀ N, pass2 ((l :: l2 :: rest2).dropWhile blockPred) = some N →
          ∀ y ∈ N, noTerm y ∧ rstripped y := ih
    have homem := ih2
      (fun x hx => hnt x ((List.dropWhile_sublist _).subset hx)) o ho
    obtain ⟨ws, hwslen, hcw, hsplit⟩ := block_out_eq ((hnt l (by simp)).1)
      (fun x hx => (hnt x (by
        simp only [List.mem_cons]
        right
        right
        exact (List.takeWhile_sublist _).subset hx)).1) hval2 hfmt2
    intro y hy
    rcases List.mem_append.mp hy with hy1 | hy1
    · refine ⟨mem_pySplitlines_noTerm y hy1, ?_⟩
      rw [hsplit] at hy1
      rcases List.mem_cons.mp hy1 with rfl | hy2
      · rw [fmtRowLine]
        exact rstripped_barJoin _
      · rcases List.mem_cons.mp hy2 with rfl | hy3
        · rw [sepRowLine]
          exact rstripped_barJoin _
        · obtain ⟨cells, _, rfl⟩ := List.mem_map.mp hy3
          rw [fmtRowLine]
          exact rstripped_barJoin _
    · exact homem y hy1
  | case5 l rest hsc blk rds pr ok snd hval hok ih =>
    intro hnt M hM
    have hokf : ok = false := by
      cases ok with
      | false => rfl
      | true => exact absurd rfl hok
    subst hokf
    have hval2 : validate_table
        (parse_table_block ((l :: rest).takeWhile blockPred)).1
        (parse_table_block ((l :: rest).takeWhile blockPred)).2 =
          some (false, snd) := hval
    rw [pass2_cons_block _ _ hsc, hval2] at hM
    dsimp only at hM
    rw [if_neg (by simp)] at hM
    obtain ⟨o, ho, rfl⟩ := Option.map_eq_some'.mp hM
    have ih2 : (∀ x ∈ (l :: rest).dropWhile blockPred,
        noTerm x ∧ rstripped x) →
        ∀ N, pass2 ((l :: rest).dropWhile blockPred) = some N →
          ∀ y ∈ N, noTerm y ∧ rstripped y := ih
    have homem := ih2
      (fun x hx => hnt x ((List.dropWhile_sublist _).subset hx)) o ho
    intro y hy
    rcases List.mem_append.mp hy with hy1 | hy1
    · exact hnt y ((List.takeWhile_sublist _).subset hy1)
    · exact homem y hy1
  | case6 l rest hsc ih =>
    intro hnt M hM
    have hsc2 : startCond l rest = false := by simpa using hsc
    rw [pass2_cons_noblock _ _ hsc2] at hM
    obtain ⟨o, ho, rfl⟩ := Option.map_eq_some'.mp hM
    have homem := ih (fun x hx => hnt x (by simp [hx])) o ho
    intro y hy
    rcases List.mem_cons.mp hy with rfl | hy2
    · exact hnt y (by simp)
    · exact homem y hy2

theorem pass2_good :
    ∀ L : List Line, (∀ x ∈ L, noTerm x) → Good L →
      ∀ M, pass2 L = some M → Good M := by
  intro L
  induction L using pass2.induct with
  | case1 =>
    intro _ _ M hM
    rw [pass2_nilE] at hM
    cases hM
    exact trivial
  | case2 l rest hsc blk pr hval =>
    intro hnt _ M hM
    exfalso
    have hval2 : validate_table
        (parse_table_block ((l :: rest).takeWhile blockPred)).1
        (parse_table_block ((l :: rest).takeWhile blockPred)).2 = none := hval
    have hsome := validate_blk_isSome hsc
    rw [hval2] at hsome
    simp at hsome
  | case3 l rest hsc blk pr snd hfmt hval =>
    intro hnt _ M hM
    exfalso
    obtain ⟨l2, rest2, hrest, h1, h2, _⟩ := startCond_shape hsc
    subst hrest
    have hval2 : validate_table
        (parse_table_block ((l :: l2 :: rest2).takeWhile blockPred)).1
        (parse_table_block ((l :: l2 :: rest2).takeWhile blockPred)).2 =
          some (true, snd) := hval
    have hfmt2 : format_table
        (parse_table_block ((l :: l2 :: rest2).takeWhile blockPred)).1 =
          none := hfmt
    rw [takeWhile_block_cons2 h1 h2] at hval2 hfmt2
    rw [show parse_table_block (l :: l2 :: rest2.takeWhile blockPred) =
        (split_row l :: (rest2.takeWhile blockPred).map split_row,
          some (pyStrip l2)) from rfl] at hval2 hfmt2
    obtain ⟨_, hall, _, _, _⟩ := validate_table_true_shape _ _ _ hval2
    have hs := format_table_some_of_shape _ hall
    rw [hfmt2] at hs
    simp at hs
  | case4 l rest hsc blk rds pr snd f hfmt hval ih =>
    intro hnt hG M hM
    obtain ⟨l2, rest2, hrest, hp1, hp2, hd2⟩ := startCond_shape hsc
    subst hrest
    have hval2 : validate_table
        (parse_table_block ((l :: l2 :: rest2).takeWhile blockPred)).1
        (parse_table_block ((l :: l2 :: rest2).takeWhile blockPred)).2 =
          some (true, snd) := hval
    have hfmt2 : format_table
        (parse_table_block ((l :: l2 :: rest2).takeWhile blockPred)).1 =
          some f := hfmt
    rw [takeWhile_block_cons2 hp1 hp2] at hval2 hfmt2
    rw [show parse_table_block (l :: l2 :: rest2.takeWhile blockPred) =
        (split_row l :: (rest2.takeWhile blockPred).map split_row,
          some (pyStrip l2)) from rfl] at hval2 hfmt2
    rw [pass2_cons_block _ _ hsc, takeWhile_block_cons2 hp1 hp2,
      show parse_table_block (l :: l2 :: rest2.takeWhile blockPred) =
        (split_row l :: (rest2.takeWhile blockPred).map split_row,
          some (pyStrip l2)) from rfl, hval2] at hM
    dsimp only at hM
    rw [if_pos rfl, hfmt2] at hM
    obtain ⟨o, ho, rfl⟩ := Option.map_eq_some'.mp hM
    have hGrds : Good ((l :: l2 :: rest2).dropWhile blockPred) := by
      apply Good_suffix ((l :: l2 :: rest2).takeWhile blockPred)
      rw [List.takeWhile_append_dropWhile]
      exact hG
    have ih2 : (∀ x ∈ (l :: l2 :: rest2).dropWhile blockPred, noTerm x) →
        Good ((l :: l2 :: rest2).dropWhile blockPred) →
        ∀ N, pass2 ((l :: l2 :: rest2).dropWhile blockPred) = some N →
          Good N := ih
    have hGo : Good o := ih2
      (fun x hx => hnt x ((List.dropWhile_sublist _).subset hx)) hGrds o ho
    obtain ⟨ws, hwslen, hcw, hsplit⟩ := block_out_eq (hnt l (by simp))
      (fun x hx => hnt x (by
        simp only [List.mem_cons]
        right
        right
        exact (List.takeWhile_sublist _).subset hx)) hval2 hfmt2
    rw [hsplit]
    apply Good_append_nohash
    · intro x hx
      rcases List.mem_cons.mp hx with rfl | hx2
      · rw [fmtRowLine]
        exact barJoin_not_hash _
      · rcases List.mem_cons.mp hx2 with rfl | hx3
        · rw [sepRowLine]
          exact barJoin_not_hash _
        · obtain ⟨cells, _, rfl⟩ := List.mem_map.mp hx3
          rw [fmtRowLine]
          exact barJoin_not_hash _
    · exact hGo
  | case5 l rest hsc blk rds pr ok snd hval hok ih =>
    intro hnt hG M hM
    have hokf : ok = false := by
      cases ok with
      | false => rfl
      | true => exact absurd rfl hok
    subst hokf
    have hval2 : validate_table
        (parse_table_block ((l :: rest).takeWhile blockPred)).1
        (parse_table_block ((l :: rest).takeWhile blockPred)).2 =
          some (false, snd) := hval
    rw [pass2_cons_block _ _ hsc, hval2] at hM
    dsimp only at hM
    rw [if_neg (by simp)] at hM
    obtain ⟨o, ho, rfl⟩ := Option.map_eq_some'.mp hM
    have hGsplit : Good ((l :: rest).takeWhile blockPred ++
        (l :: rest).dropWhile blockPred) := by
      rw [List.takeWhile_append_dropWhile]
      exact hG
    have hGrds : Good ((l :: rest).dropWhile blockPred) :=
      Good_suffix _ _ hGsplit
    have ih2 : (∀ x ∈ (l :: rest).dropWhile blockPred, noTerm x) →
        Good ((l :: rest).dropWhile blockPred) →
        ∀ N, pass2 ((l :: rest).dropWhile blockPred) = some N →
          Good N := ih
    have hGo : Good o := ih2
      (fun x hx => hnt x ((List.dropWhile_sublist _).subset hx)) hGrds o ho
    exact Good_replace_tail _ _ _ hGsplit hGo (pass2_blank_head ho)
  | case6 l rest hsc ih =>
    intro hnt hG M hM
    have hsc2 : startCond l rest = false := by simpa using hsc
    rw [pass2_cons_noblock _ _ hsc2] at hM
    obtain ⟨o, ho, rfl⟩ := Option.map_eq_some'.mp hM
    obtain ⟨hGl, hGrest⟩ := hG
    have hGo : Good o := ih (fun x hx => hnt x (by simp [hx])) hGrest o ho
    refine ⟨?_, hGo⟩
    intro hsh
    obtain ⟨hn, hsucc⟩ := hGl hsh
    exact ⟨hn, pass2_blank_head ho hsucc⟩

/-! ## C1 : idempotence of the formatting cores -/

theorem format_md_idem {t s : Line} (h : format_md_core t = some s) :
    format_md_core s = some s := by
  rw [format_md_core] at h
  obtain ⟨out, hout, rfl⟩ := Option.map_eq_some'.mp h
  have hX : ∀ x ∈ pySplitlines t, noTerm x := mem_pySplitlines_noTerm
  have hL0 : ∀ x ∈ pass1 (pySplitlines t), noTerm x ∧ rstripped x :=
    pass1_mem _ hX
  have hG0 : Good (pass1 (pySplitlines t)) := pass1_good _ hX
  have houtmem : ∀ y ∈ out, noTerm y ∧ rstripped y :=
    pass2_mem _ hL0 out hout
  have houtG : Good out :=
    pass2_good _ (fun x hx => (hL0 x hx).1) hG0 out hout
  have hidem : pass2 out = some out :=
    pass2_idem _ (fun x hx => (hL0 x hx).1) out hout
  have hrs : pyRstrip (joinNl out) = joinNl (dropTrailingEmpty out) :=
    pyRstrip_joinNl out (fun x hx => (houtmem x hx).2)
  by_cases hdte : dropTrailingEmpty out = []
  · rw [format_md_core, hrs, hdte, joinNl_nil]
    have h0 : ([] : Line).head? ≠ some '#' := by simp
    rw [show pySplitlines ([] ++ ['\n']) = [[]] from by
      rw [List.nil_append, pySplitlines, splitlinesAux_cons,
        if_pos (by decide), if_neg (by decide), splitlinesAux_nilR,
        if_pos rfl]
      rfl]
    rw [show pass1 [[]] = [[]] from by
      rw [pass1_cons, normalize_heading_no_hash h0,
        if_neg (by simp [headingMatch_no_hash h0])]
      rfl]
    rw [pass2_all_empty [[]] (by simp)]
    rfl
  · rw [format_md_core, hrs]
    have hout2mem : ∀ y ∈ dropTrailingEmpty out, noTerm y ∧ rstripped y :=
      fun y hy => houtmem y ((dte_pre out).subset hy)
    rw [pySplitlines_join_nl _ (fun l hl => (hout2mem l hl).1) hdte]
    rw [pass1_fixed _ hout2mem (Good_pre _ _ houtG (dte_pre out))]
    obtain ⟨E, hEdecomp, hEblank⟩ := dte_decomp out
    have hout_eq : pass2 (dropTrailingEmpty out ++ E)
        = some (dropTrailingEmpty out ++ E) := by
      rw [← hEdecomp]
      exact hidem
    obtain ⟨o2, ho2, heq2⟩ := pass2_strip_empties _ E hEblank _ hout_eq
    have hfix : pass2 (dropTrailingEmpty out)
        = some (dropTrailingEmpty out) := by
      have hcancel : dropTrailingEmpty out = o2 :=
        List.append_cancel_right heq2
      rw [ho2, hcancel]
    rw [hfix, Option.map_some']
    have hrs2 : pyRstrip (joinNl (dropTrailingEmpty out))
        = joinNl (dropTrailingEmpty out) := by
      rw [pyRstrip_joinNl _ (fun y hy => (hout2mem y hy).2),
        dte_eq_self (dte_getLast hdte)]
    rw [hrs2]

theorem format_json_idem {V E : Type} (parse : Line → Except E V)
    (serialize : V → Line)
    (horacle : ∀ v, parse (serialize v ++ ['\n']) = Except.ok v)
    {t s : Line} (h : format_json_core parse serialize t = some s) :
    format_json_core parse serialize s = some s := by
  rw [format_json_core] at h
  have hs : ∃ v, s = serialize v ++ ['\n'] := by
    cases hp : parse t with
    | ok v =>
      rw [hp] at h
      cases h
      exact ⟨v, rfl⟩
    | error e =>
      rw [hp] at h
      cases hp2 : parse (try_repair_json t) with
      | ok v =>
        rw [hp2] at h
        cases h
        exact ⟨v, rfl⟩
      | error e2 =>
        rw [hp2] at h
        cases h
  obtain ⟨v, rfl⟩ := hs
  rw [format_json_core, horacle v]

/-- C1.  Formatting is idempotent: for every input text on which the
Markdown format core succeeds, re-running it on its own output returns the
output unchanged, byte for byte; and over any parse/serialize oracle whose
serialization (plus the trailing newline the writer appends) re-parses to
the same value, the JSON format core likewise reproduces its own output
byte for byte. -/
theorem c1_format_idempotent :
    (∀ t s : Line, format_md_core t = some s → format_md_core s = some s) ∧
    (∀ (V E : Type) (parse : Line → Except E V) (serialize : V → Line),
      (∀ v, parse (serialize v ++ ['\n']) = Except.ok v) →
      ∀ t s : Line, format_json_core parse serialize t = some s →
        format_json_core parse serialize s = some s) :=
  ⟨fun _ _ h => format_md_idem h,
   fun _ _ parse serialize horacle _ _ h =>
     format_json_idem parse serialize horacle h⟩

theorem c1_format_idempotent_witness :
    format_md_core ['x', '\n'] = some ['x', '\n'] ∧
    format_json_core demoParse demoSerialize ['0', '\n']
      = some ['0', '\n'] :=
  ⟨c1_format_idempotent.1 ['x'] ['x', '\n'] (by
      rw [format_md_core]
      rw [show pySplitlines ['x'] = [['x']] from by
        rw [pySplitlines, splitlinesAux_cons, if_neg (by decide),
          splitlinesAux_nilR, if_neg (by decide)]
        rfl]
      rw [show pass1 [['x']] = [['x']] from by
        rw [pass1_cons,
          normalize_heading_no_hash (show (['x'] : Line).head? ≠ some '#'
            from by decide),
          if_neg (by simp [headingMatch_no_hash
            (show (['x'] : Line).head? ≠ some '#' from by decide)])]
        rfl]
      rw [pass2_cons_noblock _ _ (by decide), pass2_nilE]
      rfl),
   c1_format_idempotent.2 Unit Unit demoParse demoSerialize
     (fun v => rfl) ['0'] ['0', '\n'] rfl⟩

end Fmt
